import Mathlib

/-!
Shallow embedding of the lazy value resolution engine of the `architect`
repository (src/utils/lazy.ts, src/utils/paths.ts, src/utils/objects.ts),
together with proofs about the claims of its specification.

The embedding models JavaScript values as the inductive type `JVal`
(records keep insertion order of their keys, as JS objects do), declared
values as `SVal` (immediate values or asynchronous resolver functions whose
results may be further accessors), and the flat store `Lazy` as the list of
its recorded declarations in insertion order.  Asynchronous evaluation is
sequential in the source (each value is awaited in turn), so it is modelled
by ordinary sequential evaluation.
-/

set_option linter.unusedVariables false

namespace Architect

/-- A single key of a `ValuePath`: JS string keys and numeric keys
(the array append marker is the numeric key `-1`). -/
inductive PKey where
  | str (s : String)
  | num (i : Int)
deriving DecidableEq, Repr

/-- `ValuePath` from src/utils/paths.ts: an ordered list of keys. -/
abbrev VPath := List PKey

/-- A resolved JavaScript value.  `undef` is the JS value `undefined`;
`obj` keeps its fields in insertion order like a JS object. -/
inductive JVal where
  | undef
  | str (s : String)
  | num (n : Int)
  | bool (b : Bool)
  | arr (elems : List JVal)
  | obj (fields : List (String × JVal))

/-- The result an awaited resolver function can produce: a plain value or
a `LazyProxy` accessor pointing at a path of the same tree. -/
inductive ProxRes where
  | val (v : JVal)
  | prox (q : VPath)

/-- The `value` field of a recorded `LazyValue`: an immediate value or an
asynchronous resolver function (`typeof value === 'function'`). -/
inductive SVal where
  | imm (v : JVal)
  | fn (r : ProxRes)

/-- A `Condition` from src/utils/lazy.ts: either a `LazyProxy<boolean>`
accessor, or an async function returning a boolean (any value, truthiness
applies) or another accessor. -/
inductive Cond where
  | prox (q : VPath)
  | fn (r : ProxRes)

/-- A recorded declaration (`LazyValue<T>` in src/utils/lazy.ts). -/
structure Decl where
  path : VPath
  value : SVal
  weight : Int
  force : Bool
  condition : Option Cond

/-- The private `values` array of a `Lazy` store, in insertion order. -/
abbrev Store := List Decl

/-- One write fed to the result builder by `Lazy.get`
(`builder.set(value.path, resolved, value.force, value.weight)`). -/
structure BWrite where
  path : VPath
  value : JVal
  force : Bool
  weight : Int

/-- The errors the engine can raise.  `notFound` and
`undefinedIntermediate` are thrown as `TypeError`; `depthExceeded` and
`illegalMutation` are plain `Error`s. -/
inductive LErr where
  | notFound
  | undefinedIntermediate
  | depthExceeded
  | illegalMutation
deriving DecidableEq, Repr

/-- Whether an error is a `TypeError` (`error instanceof TypeError`). -/
def LErr.isTypeError : LErr → Bool
  | .notFound => true
  | .undefinedIntermediate => true
  | _ => false

/-- `MAX_EVALUATION_DEPTH` from src/utils/lazy.ts. -/
def MAX_EVALUATION_DEPTH : Nat := 100

/-- JS truthiness of a value, as applied by `!result` in
`Lazy.get`'s condition check. -/
def jTruthy : JVal → Bool
  | .undef => false
  | .bool b => b
  | .num n => !(n == 0)
  | .str s => !(s == "")
  | .arr _ => true
  | .obj _ => true

/-- Modelled from the spec: `isObjectDeepKeys` is imported by
src/utils/lazy.ts from the missing file src/utils/paths.ts.  Per the
spec's §4.1/§4.4 it distinguishes composite values (records and lists,
which are decomposed and deep-merged) from everything else (scalars,
functions, `undefined`), matching every use site in src/utils/lazy.ts. -/
def jIsObjectDeepKeys : JVal → Bool
  | .arr _ => true
  | .obj _ => true
  | _ => false

/-- Field lookup in a JS object (property access by string key). -/
def lookupF : List (String × JVal) → String → JVal
  | [], _ => .undef
  | (k', v) :: t, k => if k' = k then v else lookupF t k

/-- JS property update `target[k] = f(target[k])`: replaces the value of
an existing key in place, otherwise appends the new key at the end
(JS insertion order). -/
def updF : List (String × JVal) → String → (JVal → JVal) → List (String × JVal)
  | [], k, f => [(k, f .undef)]
  | (k', v) :: t, k, f => if k' = k then (k', f v) :: t else (k', v) :: updF t k f

/-- The single JS property read `curr[key]` performed by the final
traversal of `Lazy.get`.  Numeric string keys index arrays as JS does;
array properties such as `length` are outside the value model. -/
def jIndex : JVal → PKey → JVal
  | .obj fs, .str k => lookupF fs k
  | .obj fs, .num i => lookupF fs (toString i)
  | .arr l, .num i => if i < 0 then .undef else l.getD i.toNat .undef
  | .arr l, .str k =>
    match k.toNat? with
    | some i => l.getD i .undef
    | none => .undef
  | _, _ => .undef

mutual

/-- lodash `_.merge(dst, src)` on plain values, as invoked by
`ValuePathUtils.merge` (src/utils/paths.ts).  A record source merges
key by key, an array source merges index-wise (extra destination elements
survive), any other source leaves the destination unchanged (a primitive
source has no own enumerable properties).  A source that would graft
properties onto a value of mismatched shape (string keys onto an array,
index keys onto a record) is out of the value model and keeps the
destination; no declaration-level claim reaches those corners. -/
def lodashMerge : JVal → JVal → JVal
  | dst, .obj sfs =>
    match dst with
    | .obj dfs => .obj (lmFields dfs sfs)
    | d => d
  | dst, .arr sl =>
    match dst with
    | .arr dl => .arr (lmElems dl sl)
    | d => d
  | dst, _ => dst
termination_by dst src => (sizeOf src, 0)
decreasing_by all_goals (simp_wf; omega)

/-- Keys of the source are merged in order into the destination fields. -/
def lmFields : List (String × JVal) → List (String × JVal) → List (String × JVal)
  | dfs, [] => dfs
  | dfs, (k, sv) :: rest => lmFields (updF dfs k (fun dv => lmAssign dv sv)) rest
termination_by dfs sfs => (sizeOf sfs, 1)
decreasing_by all_goals (simp_wf; omega)

/-- lodash's per-property merge rule: composite sources recurse into a
composite destination and replace any other destination; a defined
primitive source is assigned; an `undefined` source keeps the
destination. -/
def lmAssign (dv : JVal) (sv : JVal) : JVal :=
  match sv with
  | .undef => dv
  | .obj sfs =>
    match dv with
    | .obj _ => lodashMerge dv (.obj sfs)
    | .arr _ => lodashMerge dv (.obj sfs)
    | _ => .obj sfs
  | .arr sl =>
    match dv with
    | .obj _ => lodashMerge dv (.arr sl)
    | .arr _ => lodashMerge dv (.arr sl)
    | _ => .arr sl
  | prim => prim
termination_by (sizeOf sv, 1)
decreasing_by all_goals (simp_wf; omega)

/-- Index-wise merge of two arrays; surplus destination elements are
kept, surplus source elements are appended. -/
def lmElems : List JVal → List JVal → List JVal
  | dl, [] => dl
  | [], sv :: st => lmAssign .undef sv :: lmElems [] st
  | dv :: dt, sv :: st => lmAssign dv sv :: lmElems dt st
termination_by dl sl => (sizeOf sl, 1)
decreasing_by all_goals (simp_wf; omega)

end

/-- JS `Array.prototype.concat`: an array argument contributes its
elements, anything else is appended as a single element. -/
def arrConcat (l : List JVal) (src : JVal) : JVal :=
  match src with
  | .arr m => .arr (l ++ m)
  | x => .arr (l ++ [x])

mutual

/-- lodash `_.mergeWith(dst, src, customizer)` with the customizer of
`recursiveMerge` (src/utils/objects.ts): whenever the destination value is
an array it is concatenated with the source value; otherwise lodash's
default merge rule applies, with nested merges using the customizer too. -/
def lodashMergeWith : JVal → JVal → JVal
  | dst, .obj sfs =>
    match dst with
    | .obj dfs => .obj (lmwFields dfs sfs)
    | d => d
  | dst, .arr sl =>
    match dst with
    | .arr dl => arrConcat dl (.arr sl)
    | d => d
  | dst, _ => dst
termination_by dst src => (sizeOf src, 0)
decreasing_by all_goals (simp_wf; omega)

def lmwFields : List (String × JVal) → List (String × JVal) → List (String × JVal)
  | dfs, [] => dfs
  | dfs, (k, sv) :: rest => lmwFields (updF dfs k (fun dv => lmwAssign dv sv)) rest
termination_by dfs sfs => (sizeOf sfs, 1)
decreasing_by all_goals (simp_wf; omega)

/-- Per-property rule of `_.mergeWith` under the array-concat customizer:
the customizer fires first on any array destination. -/
def lmwAssign (dv : JVal) (sv : JVal) : JVal :=
  match dv with
  | .arr dl => arrConcat dl sv
  | _ =>
    match sv with
    | .undef => dv
    | .obj sfs =>
      match dv with
      | .obj _ => lodashMergeWith dv (.obj sfs)
      | _ => .obj sfs
    | .arr sl => .arr sl
    | prim => prim
termination_by (sizeOf sv, 1)
decreasing_by all_goals (simp_wf; omega)

end

/-- `recursiveMerge(object, source)` from src/utils/objects.ts: an array
is concatenated with the source, anything else goes through
`_.mergeWith` with the array-concatenating customizer. -/
def recursiveMerge (o : JVal) (src : JVal) : JVal :=
  match o with
  | .arr l => arrConcat l src
  | _ => lodashMergeWith o src

/-- `ValuePathUtils.merge(target, value, path)` from src/utils/paths.ts:
place `value` at `path` inside `target`.  At the end of the path a
composite target deep-merges via `_.merge`, anything else is replaced.
A string key descends into (or creates) a record, a numeric key always
pushes a freshly built value onto (or creates) an array.  (A string key
reaching an array target would graft a string property onto the array in
JS, which the value model cannot represent; the array is kept.) -/
def mergeVP (t : JVal) (v : JVal) : VPath → JVal
  | [] =>
    match t with
    | .obj dfs => lodashMerge (.obj dfs) v
    | .arr dl => lodashMerge (.arr dl) v
    | _ => v
  | .str k :: rest =>
    match t with
    | .arr l => .arr l
    | .obj kvs => .obj (updF kvs k (fun old => mergeVP old v rest))
    | _ => .obj [(k, mergeVP .undef v rest)]
  | .num _ :: rest =>
    match t with
    | .arr l => .arr (l ++ [mergeVP .undef v rest])
    | _ => .arr [mergeVP .undef v rest]

/-- Modelled from the spec: the forced write rule of the missing
`PathResultBuilder` (src/utils/paths.ts).  §4.2: a forced write replaces
whatever currently occupies its path instead of merging, descending
through containers like an ordinary write. -/
def forcePut (t : JVal) (v : JVal) : VPath → JVal
  | [] => v
  | .str k :: rest =>
    match t with
    | .arr l => .arr l
    | .obj kvs => .obj (updF kvs k (fun old => forcePut old v rest))
    | _ => .obj [(k, forcePut .undef v rest)]
  | .num _ :: rest =>
    match t with
    | .arr l => .arr (l ++ [forcePut .undef v rest])
    | _ => .arr [forcePut .undef v rest]

/-- Modelled from the spec: `PathResultBuilder` (missing from
src/utils/paths.ts; §4.2 of the spec).  It accepts the ordered writes fed
by `Lazy.get` and applies them strictly in order onto an initially
undefined result, non-forced writes through `ValuePathUtils.merge` and
forced writes by replacement. -/
def builderResolve (ws : List BWrite) : JVal :=
  List.foldl (fun t w => if w.force then forcePut t w.value w.path else mergeVP t w.value w.path)
    JVal.undef ws

/-- The final traversal of `Lazy.get` (src/utils/lazy.ts): walk the
requested path into the merged result; reading a key while the current
node is `undefined` throws a `TypeError`. -/
def walkPath (v : JVal) : VPath → Except LErr JVal
  | [] => .ok v
  | k :: rest =>
    match v with
    | .undef => .error .undefinedIntermediate
    | _ => walkPath (jIndex v k) rest

/-- Stable insertion of a declaration into a weight-sorted list: the new
element goes before the first strictly heavier one. -/
def insertW (d : Decl) : List Decl → List Decl
  | [] => [d]
  | e :: es => if d.weight ≤ e.weight then d :: e :: es else e :: insertW d es

/-- lodash `_.sortBy(values, v => v.weight)`: a stable sort ascending by
weight. -/
def sortByWeight : List Decl → List Decl
  | [] => []
  | d :: ds => insertW d (sortByWeight ds)

/-- `arrayStartsWith(array, prefix)` from src/utils/objects.ts:
`_.isEqual(array.slice(0, prefix.length), prefix)`. -/
def arrayStartsWith (a pre : VPath) : Bool :=
  a.take pre.length == pre

/-- The chain of paths visited by the ancestor loop of
`Lazy.matchValues`: the path itself, then repeatedly `curr.pop()` (drop
the last key), down to and including the root `[]`; equivalently the
prefixes of the path from the longest down to the empty one. -/
def ancestorChain (p : VPath) : List VPath :=
  (List.range (p.length + 1)).reverse.map (fun n => p.take n)

/-- `Lazy.matchValues(path)` from src/utils/lazy.ts: declarations whose
path equals the path or one of its ancestors (collected walking from the
path up to the root), then declarations at strict descendants, the whole
list stably sorted ascending by weight. -/
def matchValues (s : Store) (p : VPath) : List Decl :=
  sortByWeight
    ((ancestorChain p).flatMap (fun anc => s.filter (fun d => d.path == anc))
      ++ s.filter (fun d => decide (0 < d.path.length) && arrayStartsWith d.path p && !(d.path == p)))

/-- The argument type of `Lazy.set`: a value that may contain resolver
functions and `LazyProxy` accessors nested inside records and lists. -/
inductive SetVal where
  | undef
  | str (s : String)
  | num (n : Int)
  | bool (b : Bool)
  | fn (r : ProxRes)
  | prox (q : VPath)
  | arr (elems : List SetVal)
  | obj (fields : List (String × SetVal))

mutual

/-- Forgetful map from a `SetVal` to the plain value stored for it when it
is recorded atomically.  Nested functions or accessors inside a forced
composite would be stored as live objects in JS; they are outside the
value model (no claim exercises a forced composite containing them) and
map to `undefined`. -/
def SetVal.toJ : SetVal → JVal
  | .undef => .undef
  | .str s => .str s
  | .num n => .num n
  | .bool b => .bool b
  | .fn _ => .undef
  | .prox _ => .undef
  | .arr l => .arr (SetVal.toJList l)
  | .obj fs => .obj (SetVal.toJFields fs)
termination_by v => (sizeOf v, 0)
decreasing_by all_goals (simp_wf; omega)

def SetVal.toJList : List SetVal → List JVal
  | [] => []
  | x :: t => SetVal.toJ x :: SetVal.toJList t
termination_by l => (sizeOf l, 1)
decreasing_by all_goals (simp_wf; omega)

def SetVal.toJFields : List (String × SetVal) → List (String × JVal)
  | [] => []
  | (k, x) :: t => (k, SetVal.toJ x) :: SetVal.toJFields t
termination_by fs => (sizeOf fs, 1)
decreasing_by all_goals (simp_wf; omega)

end

mutual

/-- Embedding of a plain value into `SetVal`. -/
def SetVal.ofJ : JVal → SetVal
  | .undef => .undef
  | .str s => .str s
  | .num n => .num n
  | .bool b => .bool b
  | .arr l => .arr (SetVal.ofJList l)
  | .obj fs => .obj (SetVal.ofJFields fs)
termination_by v => (sizeOf v, 0)
decreasing_by all_goals (simp_wf; omega)

def SetVal.ofJList : List JVal → List SetVal
  | [] => []
  | x :: t => SetVal.ofJ x :: SetVal.ofJList t
termination_by l => (sizeOf l, 1)
decreasing_by all_goals (simp_wf; omega)

def SetVal.ofJFields : List (String × JVal) → List (String × SetVal)
  | [] => []
  | (k, x) :: t => (k, SetVal.ofJ x) :: SetVal.ofJFields t
termination_by fs => (sizeOf fs, 1)
decreasing_by all_goals (simp_wf; omega)

end

/-- The value actually recorded for an atomically stored `SetVal`:
functions are stored as resolvers, everything else as an immediate
value. -/
def toStored : SetVal → SVal
  | .fn r => .fn r
  | .prox q => .fn (.prox q)
  | x => .imm x.toJ

mutual

/-- `Lazy.set(path, value_, weight, force, condition)` from
src/utils/lazy.ts, as the list of declarations it appends (in push
order).  A `LazyProxy` argument is first wrapped into a resolver
(`async () => value_`).  A value that is not a composite with keys, or an
empty composite, or any value under `force`, is recorded as a single
declaration; a non-empty list recurses per element at `path ++ [-1]` and
a non-empty record per key at `path ++ [key]`. -/
def setDecls (p : VPath) (v : SetVal) (w : Int) (force : Bool) (c : Option Cond) : List Decl :=
  match v with
  | .prox q => [⟨p, .fn (.prox q), w, force, c⟩]
  | .arr l =>
    if force then [⟨p, toStored (.arr l), w, force, c⟩]
    else
      match l with
      | [] => [⟨p, toStored (.arr []), w, force, c⟩]
      | x :: rest => setDeclsElems p (x :: rest) w force c
  | .obj fs =>
    if force then [⟨p, toStored (.obj fs), w, force, c⟩]
    else
      match fs with
      | [] => [⟨p, toStored (.obj []), w, force, c⟩]
      | kx :: rest => setDeclsFields p (kx :: rest) w force c
  | x => [⟨p, toStored x, w, force, c⟩]
termination_by (sizeOf v, 0)
decreasing_by all_goals (simp_wf; omega)

/-- The `for` loop of `Lazy.set` over the elements of a list value:
`this.set(path.concat(-1), value[i], weight, force, condition)`. -/
def setDeclsElems (p : VPath) (l : List SetVal) (w : Int) (force : Bool) (c : Option Cond) : List Decl :=
  match l with
  | [] => []
  | x :: rest => setDecls (p ++ [.num (-1)]) x w force c ++ setDeclsElems p rest w force c
termination_by (sizeOf l, 1)
decreasing_by all_goals (simp_wf; omega)

/-- The `for` loop of `Lazy.set` over `Object.entries` of a record value:
`this.set(path.concat(k), v, weight, force, condition)`. -/
def setDeclsFields (p : VPath) (fs : List (String × SetVal)) (w : Int) (force : Bool) (c : Option Cond) : List Decl :=
  match fs with
  | [] => []
  | (k, x) :: rest => setDecls (p ++ [.str k]) x w force c ++ setDeclsFields p rest w force c
termination_by (sizeOf fs, 1)
decreasing_by all_goals (simp_wf; omega)

end

/-- The `Lazy` constructor (`private constructor(value) { this.set([], value); }`). -/
def lazyFrom (v : SetVal) : Store :=
  setDecls [] v 0 false none

/-- A store built from a plain initial value. -/
def fromJ (v : JVal) : Store :=
  lazyFrom (SetVal.ofJ v)

/-- A public `set` call on an existing store: the new declarations are
appended to the store (declarations are append-only). -/
def storeSet (s : Store) (p : VPath) (v : SetVal) (w : Int) (force : Bool) (c : Option Cond) : Store :=
  s ++ setDecls p v w force c

/-- `Lazy.resolveCondition(condition, depth)` from src/utils/lazy.ts,
with `recur` standing for a nested `$resolve(undefined, depth)` call: a
`LazyProxy` condition is resolved through the tree, a function condition
is awaited and its result resolved likewise when it is itself a proxy. -/
def resolveCondA (recur : Store → VPath → JVal → Nat → Except LErr JVal)
    (s : Store) (depth : Nat) : Cond → Except LErr JVal
  | .prox q => recur s q .undef depth
  | .fn (.val v) => .ok v
  | .fn (.prox q) => recur s q .undef depth

/-- The `for (const value of values)` loop of `Lazy.get`
(src/utils/lazy.ts), with `recur` standing for a nested
`$resolve(undefined, depth)`: evaluate each declaration's condition
(skipping the declaration when falsy), resolve its value (calling the
resolver, and resolving a returned accessor through the tree), and emit
the corresponding builder write.  `cloneDeep` is the identity on plain
values. -/
def processDeclsA (recur : Store → VPath → JVal → Nat → Except LErr JVal)
    (s : Store) (depth : Nat) : List Decl → Except LErr (List BWrite)
  | [] => .ok []
  | d0 :: rest =>
    match
      (match d0.condition with
       | none => .ok true
       | some c => (resolveCondA recur s depth c).map jTruthy : Except LErr Bool) with
    | .error e => .error e
    | .ok false => processDeclsA recur s depth rest
    | .ok true =>
      match
        (match d0.value with
         | .imm v => .ok v
         | .fn (.val v) => .ok v
         | .fn (.prox q) => recur s q .undef depth : Except LErr JVal) with
      | .error e => .error e
      | .ok v =>
        match processDeclsA recur s depth rest with
        | .error e => .error e
        | .ok ws => .ok (⟨d0.path, v, d0.force, d0.weight⟩ :: ws)

/-- `Lazy.get(path, depth)` from src/utils/lazy.ts, with `recur` standing
for a nested `$resolve(undefined, depth)`: collect the matching
declarations (not-found if none), resolve each surviving declaration into
a write for the result builder, build the merged result and traverse it
along the requested path (an `undefined` merged result is returned as
is). -/
def lazyGetA (recur : Store → VPath → JVal → Nat → Except LErr JVal)
    (s : Store) (p : VPath) (depth : Nat) : Except LErr JVal :=
  match matchValues s p with
  | [] => .error .notFound
  | vs =>
    match processDeclsA recur s depth vs with
    | .error e => .error e
    | .ok ws =>
      match builderResolve ws with
      | .undef => .ok .undef
      | result => walkPath result p

/-- `$resolve(fallback, depth)` of `LazyProxy.from` (src/utils/lazy.ts):
bump the depth, fail with depth-exceeded past `MAX_EVALUATION_DEPTH`,
otherwise ask the store with `root.get(path, depth)`.  On success a
supplied fallback is deep-merged under a composite result and replaces
any other result; a `TypeError` failure (not-found or
undefined-intermediate) is recovered by a supplied fallback.  An absent
fallback is JS `undefined`, modelled as `JVal.undef`.

The first argument is the structural recursion variant: the source
recursion terminates because every nested `$resolve` strictly increases
`depth`, which is checked against the ceiling before recursing, so
`MAX_EVALUATION_DEPTH + 2 - depth` is an upper bound on the remaining
nesting and the fuel-exhausted case of the wrapper `lazyResolve` is never
reached (`lazyResolve_eq` below characterises the wrapper without it). -/
def lazyResolveF : Nat → Store → VPath → JVal → Nat → Except LErr JVal
  | 0, _, _, _, _ => .error .depthExceeded
  | fuel + 1, s, p, fallback, depth =>
    if MAX_EVALUATION_DEPTH < depth + 1 then .error .depthExceeded
    else
      match lazyGetA (lazyResolveF fuel) s p (depth + 1) with
      | .ok result =>
        match fallback with
        | .undef => .ok result
        | fb =>
          match result with
          | .undef => .ok fb
          | r => if jIsObjectDeepKeys r then .ok (recursiveMerge fb r) else .ok fb
      | .error e =>
        match fallback with
        | .undef => .error e
        | fb => if e.isTypeError then .ok fb else .error e

/-- `$resolve(fallback, depth)` at its natural fuel. -/
def lazyResolve (s : Store) (p : VPath) (fallback : JVal) (depth : Nat) : Except LErr JVal :=
  lazyResolveF (MAX_EVALUATION_DEPTH + 2 - depth) s p fallback depth

/-- `Lazy.get(path, depth)` at its natural fuel (nested resolutions run
`$resolve(undefined, depth)` at the same depth). -/
def lazyGet (s : Store) (p : VPath) (depth : Nat) : Except LErr JVal :=
  lazyGetA (lazyResolveF (MAX_EVALUATION_DEPTH + 2 - depth)) s p depth

/-- The declaration-processing loop of `Lazy.get` at its natural fuel. -/
def processDecls (s : Store) (depth : Nat) (l : List Decl) : Except LErr (List BWrite) :=
  processDeclsA (lazyResolveF (MAX_EVALUATION_DEPTH + 2 - depth)) s depth l

/-! ### Auxiliary definitions used by the theorems -/

/-- Distinct single-character-run string keys, used to build concrete
reference chains. -/
def ukey (i : Nat) : PKey :=
  .str (String.mk (List.replicate i 'a'))

/-- A store whose declarations form a reference chain of `n` hops:
declaration `i` (for `i < n`) is a resolver returning the accessor of the
path of declaration `i + 1`, and declaration `n` is the immediate value
`0`. -/
def chainStore (n : Nat) : Store :=
  (List.range n).map (fun i => ⟨[ukey i], .fn (.prox [ukey (i + 1)]), 0, false, none⟩)
    ++ [⟨[ukey n], .imm (.num 0), 0, false, none⟩]

/-- A scalar in the sense of the spec's §3: a defined value that is not a
record or a list. -/
def jIsScalar : JVal → Bool
  | .str _ => true
  | .num _ => true
  | .bool _ => true
  | _ => false

/-- A path made of string keys only (the paths produced by accessor
navigation, which stringifies every key). -/
def isStrPath (p : VPath) : Bool :=
  p.all (fun k => match k with | .str _ => true | .num _ => false)

/-- The nested single-entry containers `ValuePathUtils.merge` builds when
placing a value at a fresh path: one record level per string key, one
array level per numeric key. -/
def wrapS : VPath → JVal → JVal
  | [], v => v
  | .str k :: rest, v => .obj [(k, wrapS rest v)]
  | .num _ :: rest, v => .arr [wrapS rest v]

mutual

/-- The writes recorded by `Lazy.set` for a plain initial value, as
(path, value) pairs in push order: the value-level shadow of
`setDecls` for values without functions or accessors. -/
def setWJ (p : VPath) (v : JVal) : List (VPath × JVal) :=
  match v with
  | .arr [] => [(p, .arr [])]
  | .obj [] => [(p, .obj [])]
  | .arr l => setWJElems p l
  | .obj fs => setWJFields p fs
  | x => [(p, x)]
termination_by (sizeOf v, 0)
decreasing_by all_goals (simp_wf; omega)

def setWJElems (p : VPath) (l : List JVal) : List (VPath × JVal) :=
  match l with
  | [] => []
  | x :: rest => setWJ (p ++ [.num (-1)]) x ++ setWJElems p rest
termination_by (sizeOf l, 1)
decreasing_by all_goals (simp_wf; omega)

def setWJFields (p : VPath) (fs : List (String × JVal)) : List (VPath × JVal) :=
  match fs with
  | [] => []
  | (k, x) :: rest => setWJ (p ++ [.str k]) x ++ setWJFields p rest
termination_by (sizeOf fs, 1)
decreasing_by all_goals (simp_wf; omega)

end

/-- Applying a list of non-forced builder writes in order, as
`PathResultBuilder.resolve` does for weight-0 unforced declarations. -/
def applyW (t : JVal) (ws : List (VPath × JVal)) : JVal :=
  ws.foldl (fun t w => mergeVP t w.2 w.1) t

/-- How many declarations `Lazy.set` records for the value. -/
def writeCount (v : JVal) : Nat :=
  (setWJ [] v).length

/-- Whether the string keys of a record's field list are pairwise
distinct (JS objects cannot repeat a key). -/
def nodupKeys : List (String × JVal) → Bool
  | [] => true
  | (k, _) :: t => !(t.map Prod.fst).contains k && nodupKeys t

mutual

/-- The round-trippable values: records have distinct keys, and every
value sitting inside a list records exactly one declaration (the shared
append marker `-1` turns every recorded declaration below a list into a
separate pushed element, so multi-declaration elements fragment). -/
def roundTrippable : JVal → Bool
  | .arr l => roundTrippableElems l
  | .obj fs => nodupKeys fs && roundTrippableFields fs
  | _ => true
termination_by v => (sizeOf v, 0)
decreasing_by all_goals (simp_wf; omega)

def roundTrippableElems : List JVal → Bool
  | [] => true
  | x :: rest => roundTrippable x && (writeCount x == 1) && roundTrippableElems rest
termination_by l => (sizeOf l, 1)
decreasing_by all_goals (simp_wf; omega)

def roundTrippableFields : List (String × JVal) → Bool
  | [] => true
  | (_, x) :: rest => roundTrippable x && roundTrippableFields rest
termination_by fs => (sizeOf fs, 1)
decreasing_by all_goals (simp_wf; omega)

end

/-! ### The proxy handler of `LazyProxy.from`

The accessor returned by `LazyProxy.from` is a JS `Proxy` whose handler
defines `defineProperty` and `deleteProperty` traps that throw
unconditionally, a `get` trap for navigation, and no `set` trap
(src/utils/lazy.ts lines 91–107).  The ECMAScript dispatch of the three
structural mutation operations over such a handler is modelled below. -/

/-- The behavior of a trap present on the handler: both traps of the
source throw. -/
inductive TrapBehavior where
  | throwMutation

/-- The shape of the relevant part of a proxy handler: which of the three
mutation-related traps are present. -/
structure ProxyTraps where
  defineProperty : Option TrapBehavior
  deleteProperty : Option TrapBehavior
  setTrap : Option TrapBehavior

/-- The handler installed by `LazyProxy.from`. -/
def lazyProxyTraps : ProxyTraps :=
  { defineProperty := some .throwMutation
    deleteProperty := some .throwMutation
    setTrap := none }

/-- ECMA `[[DefineOwnProperty]]` on the proxy (reached by
`Object.defineProperty`/`Reflect.defineProperty` and by property
creation during assignment): the `defineProperty` trap runs when present;
without a trap the operation falls through to the plain target and
succeeds. -/
def proxyDefine (h : ProxyTraps) : Except LErr Unit :=
  match h.defineProperty with
  | some .throwMutation => .error .illegalMutation
  | none => .ok ()

/-- ECMA `[[Delete]]` on the proxy (`delete proxy.key`). -/
def proxyDelete (h : ProxyTraps) : Except LErr Unit :=
  match h.deleteProperty with
  | some .throwMutation => .error .illegalMutation
  | none => .ok ()

/-- ECMA `[[Set]]` on the proxy (`proxy.key = value`, receiver the proxy
itself): with no `set` trap, `OrdinarySet` runs against the target and —
whether the key is fresh or an existing writable data property — ends by
defining the property on the receiver, which routes through the proxy's
`[[DefineOwnProperty]]` and hence its `defineProperty` trap. -/
def proxyAssign (h : ProxyTraps) : Except LErr Unit :=
  match h.setTrap with
  | some .throwMutation => .error .illegalMutation
  | none => proxyDefine h

/-- The three structural mutations of the virtual tree through a
navigated accessor that do not go through `$set`. -/
inductive MutOp where
  | assignProp
  | defineProp
  | deleteProp

/-- Performing a structural mutation on an accessor of the store `s`:
the traps never reach the store, which is returned unchanged on
success. -/
def proxyMutate (s : Store) (op : MutOp) : Except LErr (Unit × Store) :=
  (match op with
   | .assignProp => proxyAssign lazyProxyTraps
   | .defineProp => proxyDefine lazyProxyTraps
   | .deleteProp => proxyDelete lazyProxyTraps).map (fun u => (u, s))

/-- The fields of a record value (the empty field list otherwise). -/
def fieldsOf : JVal → List (String × JVal)
  | .obj kvs => kvs
  | _ => []

/-- The elements of a list value (the empty element list otherwise). -/
def elemsOf : JVal → List JVal
  | .arr l => l
  | _ => []

/-- A declaration with an immediate value and no condition. -/
def isPureDecl (d : Decl) : Bool :=
  d.condition.isNone &&
    match d.value with
    | .imm _ => true
    | .fn _ => false

/-- The builder write emitted for a pure immediate declaration. -/
def declWrite (d : Decl) : BWrite :=
  ⟨d.path,
   (match d.value with
    | .imm v => v
    | .fn _ => .undef),
   d.force, d.weight⟩

/-- The values `Lazy.set` records as a single declaration: any value
under `force`, and otherwise everything except a non-empty list or
record (scalars, functions, accessors and empty composites). -/
def setAtomic (v : SetVal) (force : Bool) : Bool :=
  force ||
    match v with
    | .arr (_ :: _) => false
    | .obj (_ :: _) => false
    | _ => true

/-! ## Theorems -/

/-- The defining equation of `$resolve`: bump the depth, check the
ceiling, delegate to `Lazy.get` and post-process with the fallback.  This
characterises the wrapper without its fuel argument. -/
theorem lazyResolve_eq (s : Store) (p : VPath) (fb : JVal) (d : Nat) :
    lazyResolve s p fb d =
      if MAX_EVALUATION_DEPTH < d + 1 then .error .depthExceeded
      else
        match lazyGet s p (d + 1) with
        | .ok result =>
          match fb with
          | .undef => .ok result
          | fb =>
            match result with
            | .undef => .ok fb
            | r => if jIsObjectDeepKeys r then .ok (recursiveMerge fb r) else .ok fb
        | .error e =>
          match fb with
          | .undef => .error e
          | fb => if e.isTypeError then .ok fb else .error e := by
  by_cases hd : MAX_EVALUATION_DEPTH < d + 1
  · simp only [lazyResolve, if_pos hd]
    rcases h0 : MAX_EVALUATION_DEPTH + 2 - d with _ | fuel
    · simp [lazyResolveF]
    · simp [lazyResolveF, hd]
  · have h0 : MAX_EVALUATION_DEPTH + 2 - d = (MAX_EVALUATION_DEPTH + 2 - (d + 1)) + 1 := by
      simp only [MAX_EVALUATION_DEPTH] at hd ⊢
      omega
    simp only [lazyResolve, lazyGet, h0, lazyResolveF, if_neg hd]

/-- C1 (amended): with a supplied fallback and the depth ceiling not yet
hit, `$resolve` (i) returns the fallback when `store.get` fails with a
`TypeError` (not-found or undefined-intermediate); (ii) returns the
resolved value deep-merged under the fallback when `store.get` succeeds
with a composite (record or list) value; and (iii) returns the fallback —
not the resolved value — when `store.get` succeeds with a scalar or
undefined value. -/
theorem resolve_fallback_cases (s : Store) (p : VPath) (fb : JVal) (d : Nat)
    (hfb : fb ≠ .undef) (hd : ¬ MAX_EVALUATION_DEPTH < d + 1) :
    (∀ e, lazyGet s p (d + 1) = .error e → e.isTypeError = true →
      lazyResolve s p fb d = .ok fb) ∧
    (∀ v, lazyGet s p (d + 1) = .ok v → jIsObjectDeepKeys v = true →
      lazyResolve s p fb d = .ok (recursiveMerge fb v)) ∧
    (∀ v, lazyGet s p (d + 1) = .ok v → jIsObjectDeepKeys v = false →
      lazyResolve s p fb d = .ok fb) := by
  rw [lazyResolve_eq, if_neg hd]
  refine ⟨?_, ?_, ?_⟩
  · intro e he hte
    rw [he]
    cases fb <;> simp_all
  · intro v hv hodk
    rw [hv]
    cases fb <;> cases v <;> simp_all [jIsObjectDeepKeys]
  · intro v hv hodk
    rw [hv]
    cases fb <;> cases v <;> simp_all [jIsObjectDeepKeys]

/-- C1 witness: on the store built from the scalar `5`, resolving the
root with fallback `7` returns the fallback. -/
theorem resolve_fallback_cases_witness :
    (JVal.num 7 ≠ JVal.undef ∧ ¬ MAX_EVALUATION_DEPTH < 0 + 1) ∧
    lazyResolve (fromJ (.num 5)) [] (.num 7) 0 = .ok (.num 7) := by
  refine ⟨⟨by simp, by simp [MAX_EVALUATION_DEPTH]⟩, ?_⟩
  refine (resolve_fallback_cases (fromJ (.num 5)) [] (.num 7) 0 (by simp)
    (by simp [MAX_EVALUATION_DEPTH])).2.2 (.num 5) ?_ (by simp [jIsObjectDeepKeys])
  simp [lazyGet, lazyGetA, processDeclsA, matchValues, ancestorChain, sortByWeight,
    insertW, builderResolve, arrayStartsWith, fromJ, lazyFrom, setDecls,
    SetVal.ofJ, toStored, SetVal.toJ, mergeVP, walkPath]

/-- C1 counterexample: the claim asserts a successfully resolved
non-record value is returned rather than the fallback; but on the store
built from the scalar `5` (where `get` succeeds with `5`), `$resolve`
with fallback `7` returns `7`, not `5`. -/
theorem resolve_scalar_fallback_counterexample :
    lazyResolve (fromJ (.num 5)) [] (.num 7) 0 = .ok (.num 7) ∧
    JVal.num 7 ≠ JVal.num 5 := by
  constructor
  · simp [lazyResolve, lazyResolveF, lazyGetA, processDeclsA, matchValues, ancestorChain,
      sortByWeight, insertW, builderResolve, arrayStartsWith, fromJ, lazyFrom, setDecls,
      SetVal.ofJ, toStored, SetVal.toJ, mergeVP, walkPath, jIsObjectDeepKeys,
      MAX_EVALUATION_DEPTH]
  · simp

/-- The declaration loop of `Lazy.get` emits no write when every
declaration of the list carries a literal condition that is falsy. -/
theorem processDeclsA_all_discarded (recur : Store → VPath → JVal → Nat → Except LErr JVal)
    (s : Store) (d : Nat) (l : List Decl)
    (h : ∀ d0 ∈ l, ∃ v, d0.condition = some (.fn (.val v)) ∧ jTruthy v = false) :
    processDeclsA recur s d l = .ok [] := by
  induction l with
  | nil => simp [processDeclsA]
  | cons d0 rest ih =>
    obtain ⟨v, hc, hv⟩ := h d0 (by simp)
    have ih' := ih (fun x hx => h x (by simp [hx]))
    simp [processDeclsA, hc, resolveCondA, Except.map, hv, ih']

/-- C2 (amended): `get` fails with not-found exactly in the case where no
declaration matches the requested path at all; when matching declarations
exist but every one is discarded by a false condition, `get` succeeds
with `undefined` instead of failing. -/
theorem get_notFound_exactly_on_no_match (s : Store) (p : VPath) (d : Nat) :
    (matchValues s p = [] → lazyGet s p d = .error .notFound) ∧
    (matchValues s p ≠ [] →
      (∀ d0 ∈ matchValues s p, ∃ v, d0.condition = some (.fn (.val v)) ∧ jTruthy v = false) →
      lazyGet s p d = .ok .undef) := by
  constructor
  · intro h
    simp [lazyGet, lazyGetA, h]
  · intro hne hall
    rcases h : matchValues s p with _ | ⟨v0, vrest⟩
    · exact absurd h hne
    · have hp : processDeclsA (lazyResolveF (MAX_EVALUATION_DEPTH + 2 - d)) s d (v0 :: vrest) = .ok [] := by
        apply processDeclsA_all_discarded
        rw [← h]
        exact hall
      simp [lazyGet, lazyGetA, h, hp, builderResolve]

/-- C2 witness: a store with a single declaration at `["a"]` gated by a
literally false condition; `get(["a"], 1)` succeeds with `undefined`. -/
theorem get_notFound_exactly_on_no_match_witness :
    (matchValues [⟨[.str "a"], .imm (.num 1), 0, false, some (.fn (.val (.bool false)))⟩] [.str "a"] ≠ []) ∧
    lazyGet [⟨[.str "a"], .imm (.num 1), 0, false, some (.fn (.val (.bool false)))⟩] [.str "a"] 1 = .ok .undef := by
  have hne : matchValues [⟨[.str "a"], .imm (.num 1), 0, false, some (.fn (.val (.bool false)))⟩] [.str "a"] ≠ [] := by
    simp [matchValues, ancestorChain, sortByWeight, insertW, arrayStartsWith]
  refine ⟨hne, ?_⟩
  refine (get_notFound_exactly_on_no_match _ _ 1).2 hne ?_
  intro d0 hd0
  simp [matchValues, ancestorChain, sortByWeight, insertW, arrayStartsWith] at hd0
  subst hd0
  exact ⟨.bool false, rfl, rfl⟩

/-- C2 counterexample: the claim asserts `get` fails with not-found
whenever declarations matching the path exist but every one is discarded
by a false condition; on this store `get` instead succeeds, returning
`undefined`. -/
theorem get_all_discarded_counterexample :
    lazyGet [⟨[.str "a"], .imm (.num 1), 0, false, some (.fn (.val (.bool false)))⟩] [.str "a"] 1 = .ok .undef ∧
    ∀ e : LErr, (Except.ok JVal.undef : Except LErr JVal) ≠ .error e := by
  constructor
  · simp [lazyGet, lazyGetA, processDeclsA, matchValues, ancestorChain, sortByWeight, insertW,
      builderResolve, jTruthy, arrayStartsWith, resolveCondA, Except.map]
  · intro e
    simp

/-! ### Shared lemmas on merging, matching and sorting -/

/-- The first write at a fresh string-keyed path builds the nested
single-entry records around the value. -/
theorem mergeVP_undef_strPath (v : JVal) (p : VPath) (hp : isStrPath p = true) :
    mergeVP .undef v p = wrapS p v := by
  induction p with
  | nil => simp [mergeVP, wrapS]
  | cons k rest ih =>
    cases k with
    | str s =>
      simp only [isStrPath, List.all_cons, Bool.and_eq_true] at hp
      simp [mergeVP, wrapS, ih (by simp [isStrPath, hp.2])]
    | num i => simp [isStrPath] at hp

/-- A second write at the same string-keyed path replaces a scalar
sitting there. -/
theorem mergeVP_overwrite_strPath (u v : JVal) (p : VPath) (hp : isStrPath p = true)
    (hu : jIsObjectDeepKeys u = false) :
    mergeVP (wrapS p u) v p = wrapS p v := by
  induction p with
  | nil =>
    cases u <;> simp_all [mergeVP, wrapS, jIsObjectDeepKeys]
  | cons k rest ih =>
    cases k with
    | str s =>
      simp only [isStrPath, List.all_cons, Bool.and_eq_true] at hp
      simp [mergeVP, wrapS, updF, ih (by simp [isStrPath, hp.2])]
    | num i => simp [isStrPath] at hp

/-- Walking back down the containers built around a value returns the
value. -/
theorem walkPath_wrapS (v : JVal) (p : VPath) (hp : isStrPath p = true) :
    walkPath (wrapS p v) p = .ok v := by
  induction p with
  | nil => simp [wrapS, walkPath]
  | cons k rest ih =>
    cases k with
    | str s =>
      simp only [isStrPath, List.all_cons, Bool.and_eq_true] at hp
      simp [wrapS, walkPath, jIndex, lookupF, ih (by simp [isStrPath, hp.2])]
    | num i => simp [isStrPath] at hp

theorem wrapS_ne_undef (v : JVal) (p : VPath) (hv : jIsScalar v = true) :
    wrapS p v ≠ .undef := by
  cases p with
  | nil => cases v <;> simp_all [wrapS, jIsScalar]
  | cons k rest => cases k <;> simp [wrapS]

/-- Declarations all sitting at the requested path are matched in
insertion order (the ancestor walk hits the path first, no other
ancestor or descendant matches), then stably sorted by weight. -/
theorem matchValues_all_at_path (s : Store) (p : VPath) (h : ∀ d ∈ s, d.path = p) :
    matchValues s p = sortByWeight s := by
  unfold matchValues
  congr 1
  have hchain : ancestorChain p = p :: (List.range p.length).reverse.map (fun n => p.take n) := by
    simp [ancestorChain, List.range_succ]
  rw [hchain]
  have h1 : s.filter (fun d => d.path == p) = s :=
    List.filter_eq_self.mpr (fun d hd => by simp [h d hd])
  have h2 : ∀ a ∈ (List.range p.length).reverse.map (fun n => p.take n),
      s.filter (fun d => d.path == a) = [] := by
    intro a ha
    simp only [List.mem_map, List.mem_reverse, List.mem_range] at ha
    obtain ⟨n, hn, rfl⟩ := ha
    apply List.filter_eq_nil_iff.mpr
    intro d hd
    have hlen : (p.take n).length < p.length := by
      simp [List.length_take]
      omega
    simp only [beq_iff_eq, h d hd]
    intro hcontra
    rw [← hcontra] at hlen
    exact absurd hlen (lt_irrefl _)
  have h3 : s.filter (fun d =>
      decide (0 < d.path.length) && arrayStartsWith d.path p && !(d.path == p)) = [] := by
    apply List.filter_eq_nil_iff.mpr
    intro d hd
    simp [h d hd]
  simp only [List.flatMap_cons, h1, h3, List.append_nil]
  have : ((List.range p.length).reverse.map (fun n => p.take n)).flatMap
      (fun anc => s.filter (fun d => d.path == anc)) = [] := by
    apply List.flatMap_eq_nil_iff.mpr
    intro a ha
    exact h2 a ha
  rw [this, List.append_nil]

theorem sortByWeight_pair (d1 d2 : Decl) :
    sortByWeight [d1, d2] = if d1.weight ≤ d2.weight then [d1, d2] else [d2, d1] := by
  simp [sortByWeight, insertW]

/-- Pure immediate unconditional declarations are processed into their
writes, in order. -/
theorem processDeclsA_pure (recur : Store → VPath → JVal → Nat → Except LErr JVal)
    (s : Store) (d : Nat) (l : List Decl) (h : ∀ d0 ∈ l, isPureDecl d0 = true) :
    processDeclsA recur s d l = .ok (l.map declWrite) := by
  induction l with
  | nil => simp [processDeclsA]
  | cons d0 rest ih =>
    have h0 := h d0 (by simp)
    simp only [isPureDecl, Bool.and_eq_true, Option.isNone_iff_eq_none] at h0
    obtain ⟨hc, hv⟩ := h0
    rcases hval : d0.value with v | r
    · simp [processDeclsA, hc, hval, ih (fun x hx => h x (by simp [hx])), declWrite]
    · rw [hval] at hv
      simp at hv

/-- The two-declaration store in ascending weight order resolves to the
second (heavier or equal, later-processed) value. -/
theorem lazyGet_pair_asc (p : VPath) (u1 u2 : JVal) (w1 w2 : Int) (d : Nat)
    (hp : isStrPath p = true) (h1 : jIsScalar u1 = true) (h2 : jIsScalar u2 = true)
    (hw : w1 ≤ w2) :
    lazyGet [⟨p, .imm u1, w1, false, none⟩, ⟨p, .imm u2, w2, false, none⟩] p d = .ok u2 := by
  have hm : matchValues [⟨p, .imm u1, w1, false, none⟩, ⟨p, .imm u2, w2, false, none⟩] p
      = [⟨p, .imm u1, w1, false, none⟩, ⟨p, .imm u2, w2, false, none⟩] := by
    rw [matchValues_all_at_path _ _ (by intro x hx; simp at hx; rcases hx with rfl | rfl <;> rfl),
      sortByWeight_pair]
    simp [hw]
  have hscalar1 : jIsObjectDeepKeys u1 = false := by
    cases u1 <;> simp_all [jIsScalar, jIsObjectDeepKeys]
  have hbuild : builderResolve [declWrite ⟨p, .imm u1, w1, false, none⟩,
      declWrite ⟨p, .imm u2, w2, false, none⟩] = wrapS p u2 := by
    simp [builderResolve, declWrite, mergeVP_undef_strPath u1 p hp,
      mergeVP_overwrite_strPath u1 u2 p hp hscalar1]
  have hproc := processDeclsA_pure (lazyResolveF (MAX_EVALUATION_DEPTH + 2 - d))
    ([⟨p, .imm u1, w1, false, none⟩, ⟨p, .imm u2, w2, false, none⟩]) d
    ([⟨p, .imm u1, w1, false, none⟩, ⟨p, .imm u2, w2, false, none⟩])
    (by intro x hx; simp at hx; rcases hx with rfl | rfl <;> simp [isPureDecl])
  simp only [lazyGet, lazyGetA, hm, hproc, List.map_cons, List.map_nil, hbuild]
  have hne := wrapS_ne_undef u2 p h2
  have hwalk := walkPath_wrapS u2 p hp
  rcases hW : wrapS p u2 with _ | _ | _ | _ | _ | _
  · exact absurd hW hne
  all_goals (rw [hW] at hwalk; exact hwalk)

/-- The two-declaration store in descending weight order also resolves to
the heavier value (the stable sort swaps them). -/
theorem lazyGet_pair_desc (p : VPath) (u1 u2 : JVal) (w1 w2 : Int) (d : Nat)
    (hp : isStrPath p = true) (h1 : jIsScalar u1 = true) (h2 : jIsScalar u2 = true)
    (hw : w2 < w1) :
    lazyGet [⟨p, .imm u1, w1, false, none⟩, ⟨p, .imm u2, w2, false, none⟩] p d = .ok u1 := by
  have hm : matchValues [⟨p, .imm u1, w1, false, none⟩, ⟨p, .imm u2, w2, false, none⟩] p
      = [⟨p, .imm u2, w2, false, none⟩, ⟨p, .imm u1, w1, false, none⟩] := by
    rw [matchValues_all_at_path _ _ (by intro x hx; simp at hx; rcases hx with rfl | rfl <;> rfl),
      sortByWeight_pair]
    simp [not_le.mpr hw]
  have hscalar2 : jIsObjectDeepKeys u2 = false := by
    cases u2 <;> simp_all [jIsScalar, jIsObjectDeepKeys]
  have hbuild : builderResolve [declWrite ⟨p, .imm u2, w2, false, none⟩,
      declWrite ⟨p, .imm u1, w1, false, none⟩] = wrapS p u1 := by
    simp [builderResolve, declWrite, mergeVP_undef_strPath u2 p hp,
      mergeVP_overwrite_strPath u2 u1 p hp hscalar2]
  have hproc := processDeclsA_pure (lazyResolveF (MAX_EVALUATION_DEPTH + 2 - d))
    ([⟨p, .imm u1, w1, false, none⟩, ⟨p, .imm u2, w2, false, none⟩]) d
    ([⟨p, .imm u2, w2, false, none⟩, ⟨p, .imm u1, w1, false, none⟩])
    (by intro x hx; simp at hx; rcases hx with rfl | rfl <;> simp [isPureDecl])
  simp only [lazyGet, lazyGetA, hm, hproc, List.map_cons, List.map_nil, hbuild]
  have hne := wrapS_ne_undef u1 p h1
  have hwalk := walkPath_wrapS u1 p hp
  rcases hW : wrapS p u1 with _ | _ | _ | _ | _ | _
  · exact absurd hW hne
  all_goals (rw [hW] at hwalk; exact hwalk)

theorem mem_insertW {x d : Decl} {l : List Decl} :
    x ∈ insertW d l ↔ x = d ∨ x ∈ l := by
  induction l with
  | nil => simp [insertW]
  | cons e es ih =>
    by_cases h : d.weight ≤ e.weight
    · simp [insertW, h]
    · simp [insertW, h, ih]
      tauto

theorem insertW_pairwise (d : Decl) (l : List Decl)
    (h : l.Pairwise (fun a b => a.weight ≤ b.weight)) :
    (insertW d l).Pairwise (fun a b => a.weight ≤ b.weight) := by
  induction l with
  | nil => simp [insertW]
  | cons e es ih =>
    rcases List.pairwise_cons.mp h with ⟨he, hes⟩
    by_cases hw : d.weight ≤ e.weight
    · rw [insertW, if_pos hw]
      refine List.pairwise_cons.mpr ⟨?_, h⟩
      intro b hb
      rcases hb with _ | hb
      · exact hw
      · exact le_trans hw (he b (by assumption))
    · rw [insertW, if_neg hw]
      refine List.pairwise_cons.mpr ⟨?_, ih hes⟩
      intro b hb
      rcases mem_insertW.mp hb with rfl | hb
      · exact le_of_not_le hw
      · exact he b hb

/-- `_.sortBy(values, v => v.weight)` produces a weight-ascending list. -/
theorem sortByWeight_pairwise (l : List Decl) :
    (sortByWeight l).Pairwise (fun a b => a.weight ≤ b.weight) := by
  induction l with
  | nil => simp [sortByWeight]
  | cons d ds ih => exact insertW_pairwise d (sortByWeight ds) ih

/-- C3 (amended): the surviving declarations are sorted ascending by
weight, and the sort is stable, so for two equal-weight declarations
recorded at the *same* path the later-inserted one is applied last and
wins; but across distinct paths of the ancestor chain `matchValues`
orders by match site (exact path first, root last, descendants after),
not by insertion order, so insertion order does not decide those ties. -/
theorem matched_sorted_stable_same_path :
    (∀ l : List Decl, (sortByWeight l).Pairwise (fun a b => a.weight ≤ b.weight)) ∧
    (∀ (p : VPath) (u1 u2 : JVal) (w : Int) (d : Nat),
      isStrPath p = true → jIsScalar u1 = true → jIsScalar u2 = true →
      lazyGet [⟨p, .imm u1, w, false, none⟩, ⟨p, .imm u2, w, false, none⟩] p d = .ok u2) := by
  refine ⟨sortByWeight_pairwise, ?_⟩
  intro p u1 u2 w d hp h1 h2
  exact lazyGet_pair_asc p u1 u2 w w d hp h1 h2 le_rfl

/-- C3 witness: at path `["a"]`, two equal-weight scalar declarations
resolve to the later-inserted value. -/
theorem matched_sorted_stable_same_path_witness :
    (isStrPath [.str "a"] = true ∧ jIsScalar (.num 1) = true ∧ jIsScalar (.num 2) = true) ∧
    lazyGet [⟨[.str "a"], .imm (.num 1), 0, false, none⟩,
      ⟨[.str "a"], .imm (.num 2), 0, false, none⟩] [.str "a"] 1 = .ok (.num 2) := by
  refine ⟨⟨rfl, rfl, rfl⟩, ?_⟩
  exact matched_sorted_stable_same_path.2 [.str "a"] (.num 1) (.num 2) 0 1 rfl rfl rfl

/-- C3 counterexample: two equal-weight declarations both affecting
`["a"]`, the root-path one inserted first.  The claim predicts the
later-inserted declaration (value `2` at the exact path) wins the tie;
the code applies the ancestor declaration after it and returns `1`. -/
theorem equal_weight_ancestor_tie_counterexample :
    lazyGet [⟨[], .imm (.obj [("a", .num 1)]), 0, false, none⟩,
      ⟨[.str "a"], .imm (.num 2), 0, false, none⟩] [.str "a"] 1 = .ok (.num 1) ∧
    JVal.num 1 ≠ JVal.num 2 := by
  constructor
  · simp [lazyGet, lazyGetA, processDeclsA, matchValues, ancestorChain, sortByWeight, insertW,
      builderResolve, arrayStartsWith, mergeVP, walkPath, jIndex, lookupF, updF,
      lodashMerge, lmFields, lmAssign]
  · simp

/-- C5 (amended): weight precedence holds at any path of string keys:
with two scalar declarations at the same string-keyed path and
`w1 < w2`, resolution returns the `w2` value whichever order the two
were inserted in.  (At a path containing a numeric key the builder pushes
one array element per declaration instead of overwriting, so the claim
fails there — see the counterexample.) -/
theorem weight_precedence_strPath (p : VPath) (u1 u2 : JVal) (w1 w2 : Int) (d : Nat)
    (hp : isStrPath p = true) (h1 : jIsScalar u1 = true) (h2 : jIsScalar u2 = true)
    (hw : w1 < w2) :
    lazyGet [⟨p, .imm u1, w1, false, none⟩, ⟨p, .imm u2, w2, false, none⟩] p d = .ok u2 ∧
    lazyGet [⟨p, .imm u2, w2, false, none⟩, ⟨p, .imm u1, w1, false, none⟩] p d = .ok u2 := by
  constructor
  · exact lazyGet_pair_asc p u1 u2 w1 w2 d hp h1 h2 (le_of_lt hw)
  · exact lazyGet_pair_desc p u2 u1 w2 w1 d hp h2 h1 hw

/-- C5 witness: scalar declarations of weights `0 < 5` at `["a"]`, in
both insertion orders. -/
theorem weight_precedence_strPath_witness :
    (isStrPath [.str "a"] = true ∧ jIsScalar (.num 1) = true ∧ jIsScalar (.num 2) = true ∧
      (0 : Int) < 5) ∧
    lazyGet [⟨[.str "a"], .imm (.num 1), 0, false, none⟩,
      ⟨[.str "a"], .imm (.num 2), 5, false, none⟩] [.str "a"] 1 = .ok (.num 2) ∧
    lazyGet [⟨[.str "a"], .imm (.num 2), 5, false, none⟩,
      ⟨[.str "a"], .imm (.num 1), 0, false, none⟩] [.str "a"] 1 = .ok (.num 2) := by
  refine ⟨⟨rfl, rfl, rfl, by decide⟩, ?_⟩
  exact weight_precedence_strPath [.str "a"] (.num 1) (.num 2) 0 5 1 rfl rfl rfl (by decide)

/-- C5 counterexample: at the numeric path `[0]` the two scalar
declarations of weights `0 < 5` are pushed as separate array elements and
indexing returns the first, so resolution yields the *lower*-weight value
`1` instead of the claimed `2`. -/
theorem weight_precedence_numeric_counterexample :
    lazyGet [⟨[.num 0], .imm (.num 1), 0, false, none⟩,
      ⟨[.num 0], .imm (.num 2), 5, false, none⟩] [.num 0] 1 = .ok (.num 1) ∧
    JVal.num 1 ≠ JVal.num 2 := by
  constructor
  · simp [lazyGet, lazyGetA, processDeclsA, matchValues, ancestorChain, sortByWeight, insertW,
      builderResolve, arrayStartsWith, mergeVP, walkPath, jIndex]
  · simp

/-! ### The reference chain of C4 -/

theorem ukey_inj {a b : Nat} (h : ukey a = ukey b) : a = b := by
  simp only [ukey, PKey.str.injEq] at h
  have h2 := congrArg String.data h
  have h3 := congrArg List.length h2
  simpa using h3

theorem ukey_beq_iff {a b : Nat} : (ukey a == ukey b) = true ↔ a = b := by
  constructor
  · intro h
    exact ukey_inj (by simpa using h)
  · rintro rfl
    simp

/-- Each path of the chain matches exactly its own declaration. -/
theorem matchValues_chainStore (n i : Nat) (hi : i ≤ n) :
    matchValues (chainStore n) [ukey i] =
      if i < n then [⟨[ukey i], .fn (.prox [ukey (i + 1)]), 0, false, none⟩]
      else [⟨[ukey n], .imm (.num 0), 0, false, none⟩] := by
  have hmap : ∀ m : Nat,
      ((List.range m).map (fun j => (⟨[ukey j], .fn (.prox [ukey (j + 1)]), 0, false, none⟩ : Decl))).filter
          (fun d => d.path == [ukey i])
        = if i < m then [⟨[ukey i], .fn (.prox [ukey (i + 1)]), 0, false, none⟩] else [] := by
    intro m
    induction m with
    | zero => simp
    | succ m ih =>
      rw [List.range_succ, List.map_append, List.filter_append, ih]
      by_cases him : i < m
      · have hbeq : (ukey m == ukey i) = false := by
          rw [beq_eq_false_iff_ne]
          intro hc
          exact (by omega : ¬ m = i) (ukey_inj hc)
        have h1 : i < m + 1 := by omega
        simp [h1, him, List.filter, hbeq]
      · by_cases heq : i = m
        · subst heq
          simp [him, List.filter]
        · have hbeq : (ukey m == ukey i) = false := by
            rw [beq_eq_false_iff_ne]
            intro hc
            exact (by omega : ¬ m = i) (ukey_inj hc)
          have h1 : ¬ i < m + 1 := by omega
          simp [him, h1, List.filter, hbeq]
  have hA : (chainStore n).filter (fun d => d.path == [ukey i]) =
      if i < n then [⟨[ukey i], .fn (.prox [ukey (i + 1)]), 0, false, none⟩]
      else [⟨[ukey n], .imm (.num 0), 0, false, none⟩] := by
    unfold chainStore
    rw [List.filter_append, hmap n]
    by_cases hin : i < n
    · have hbeq : (ukey n == ukey i) = false := by
        rw [beq_eq_false_iff_ne]
        intro hc
        exact (by omega : ¬ n = i) (ukey_inj hc)
      simp [hin, List.filter, hbeq]
    · have : n = i := by omega
      subst this
      simp [hin, List.filter]
  have hB : (chainStore n).filter (fun d => d.path == ([] : VPath)) = [] := by
    apply List.filter_eq_nil_iff.mpr
    intro d hd
    unfold chainStore at hd
    rw [List.mem_append] at hd
    rcases hd with hd | hd
    · simp only [List.mem_map, List.mem_range] at hd
      obtain ⟨j, hj, rfl⟩ := hd
      simp
    · simp at hd
      subst hd
      simp
  have hC : (chainStore n).filter (fun d =>
      decide (0 < d.path.length) && arrayStartsWith d.path [ukey i] && !(d.path == [ukey i])) = [] := by
    apply List.filter_eq_nil_iff.mpr
    intro d hd
    have hpath : ∃ j, d.path = [ukey j] := by
      unfold chainStore at hd
      rw [List.mem_append] at hd
      rcases hd with hd | hd
      · simp only [List.mem_map, List.mem_range] at hd
        obtain ⟨j, hj, rfl⟩ := hd
        exact ⟨j, rfl⟩
      · simp at hd
        subst hd
        exact ⟨n, rfl⟩
    obtain ⟨j, hj⟩ := hpath
    simp only [hj, arrayStartsWith]
    by_cases hij : j = i
    · subst hij
      simp
    · have hbeq : (([ukey j] : VPath) == [ukey i]) = false := by
        rw [beq_eq_false_iff_ne]
        intro hc
        apply hij
        exact ukey_inj (by simpa using hc)
      simp [List.take, hbeq]
  have hanc : ancestorChain [ukey i] = [[ukey i], []] := rfl
  unfold matchValues
  rw [hanc]
  simp only [List.flatMap_cons, List.flatMap_nil, hA, hB, hC, List.append_nil]
  by_cases hin : i < n
  · simp [hin, sortByWeight, insertW]
  · simp [hin, sortByWeight, insertW]

/-- Resolution along the chain: with `k = n - i` hops left, resolving the
`i`-th link at depth `d` yields `0` when the budget suffices and
depth-exceeded as soon as `d + k + 1` passes the ceiling. -/
theorem chainStore_resolve (n : Nat) :
    ∀ k i d, i + k = n →
      lazyResolve (chainStore n) [ukey i] .undef d =
        if MAX_EVALUATION_DEPTH < d + k + 1 then .error .depthExceeded else .ok (.num 0) := by
  intro k
  induction k with
  | zero =>
    intro i d hi
    have hi' : i = n := by omega
    subst hi'
    rw [lazyResolve_eq]
    by_cases hd : MAX_EVALUATION_DEPTH < d + 1
    · simp [hd]
    · rw [if_neg hd, if_neg (by omega)]
      have hm := matchValues_chainStore i i le_rfl
      rw [if_neg (lt_irrefl i)] at hm
      have hproc : processDeclsA (lazyResolveF (MAX_EVALUATION_DEPTH + 2 - (d + 1)))
          (chainStore i) (d + 1) [⟨[ukey i], .imm (.num 0), 0, false, none⟩]
            = .ok [⟨[ukey i], .num 0, false, 0⟩] := by
        apply processDeclsA_pure
        intro x hx
        simp at hx
        subst hx
        rfl
      simp only [lazyGet, lazyGetA, hm, hproc]
      simp only [builderResolve, List.foldl_cons, List.foldl_nil, Bool.false_eq_true, if_false,
        ukey, mergeVP, walkPath, jIndex, lookupF, if_pos rfl]
      simp
  | succ k ih =>
    intro i d hi
    rw [lazyResolve_eq]
    by_cases hd : MAX_EVALUATION_DEPTH < d + 1
    · rw [if_pos hd, if_pos (by omega)]
    · rw [if_neg hd]
      have hm := matchValues_chainStore n i (by omega)
      rw [if_pos (by omega)] at hm
      have hrec : lazyResolveF (MAX_EVALUATION_DEPTH + 2 - (d + 1)) (chainStore n)
          [ukey (i + 1)] .undef (d + 1) =
          if MAX_EVALUATION_DEPTH < (d + 1) + k + 1 then .error .depthExceeded
          else .ok (.num 0) := ih (i + 1) (d + 1) (by omega)
      by_cases hdk : MAX_EVALUATION_DEPTH < d + (k + 1) + 1
      · rw [if_pos hdk]
        rw [if_pos (by omega)] at hrec
        simp only [lazyGet, lazyGetA, hm]
        simp only [processDeclsA, resolveCondA, hrec]
      · rw [if_neg hdk]
        rw [if_neg (by omega)] at hrec
        simp only [lazyGet, lazyGetA, hm]
        simp only [processDeclsA, resolveCondA, hrec]
        simp only [builderResolve, List.foldl_cons, List.foldl_nil, Bool.false_eq_true, if_false,
          ukey, mergeVP, walkPath, jIndex, lookupF, if_pos rfl]
        simp

/-- C4: the depth guard of `$resolve`.  (i) Past the ceiling, `$resolve`
fails with depth-exceeded before touching the store; (ii) below the
ceiling it performs exactly one nested `get` at `depth + 1` (depth grows
by one per nested resolution); (iii) resolving a reference chain of more
than `MAX_EVALUATION_DEPTH` hops terminates with a depth-exceeded error
(it cannot hang: nesting is bounded by the strictly increasing checked
depth). -/
theorem depth_guard_and_cycle_termination :
    (∀ (s : Store) (p : VPath) (fb : JVal) (d : Nat), MAX_EVALUATION_DEPTH < d + 1 →
      lazyResolve s p fb d = .error .depthExceeded) ∧
    (∀ (s : Store) (p : VPath) (d : Nat), ¬ MAX_EVALUATION_DEPTH < d + 1 →
      lazyResolve s p .undef d = lazyGet s p (d + 1)) ∧
    (∀ n, MAX_EVALUATION_DEPTH < n →
      lazyResolve (chainStore n) [ukey 0] .undef 0 = .error .depthExceeded) := by
  refine ⟨?_, ?_, ?_⟩
  · intro s p fb d hd
    rw [lazyResolve_eq, if_pos hd]
  · intro s p d hd
    rw [lazyResolve_eq, if_neg hd]
    rcases h : lazyGet s p (d + 1) with v | e <;> simp
  · intro n hn
    rw [chainStore_resolve n n 0 0 (by omega), if_pos (by omega)]

/-- C4 witness: at depth 100 the guard fires; at depth 0 resolution is a
single nested `get` at depth 1; a 101-hop reference chain fails with
depth-exceeded. -/
theorem depth_guard_and_cycle_termination_witness :
    (MAX_EVALUATION_DEPTH < 100 + 1 ∧ ¬ MAX_EVALUATION_DEPTH < 0 + 1 ∧
      MAX_EVALUATION_DEPTH < 101) ∧
    lazyResolve [] [] (.num 3) 100 = .error .depthExceeded ∧
    lazyResolve [] [] .undef 0 = lazyGet [] [] 1 ∧
    lazyResolve (chainStore 101) [ukey 0] .undef 0 = .error .depthExceeded := by
  refine ⟨⟨by decide, by decide, by decide⟩, ?_, ?_, ?_⟩
  · exact depth_guard_and_cycle_termination.1 [] [] (.num 3) 100 (by decide)
  · exact depth_guard_and_cycle_termination.2.1 [] [] 0 (by decide)
  · exact depth_guard_and_cycle_termination.2.2 101 (by decide)

/-! ### C8: assigning an accessor to `set` -/

/-- C8 (amended): `Lazy.set` of the flat-store engine never rejects its
value argument: a value that is itself an accessor (`LazyProxy`) is
wrapped into a resolver (`async () => value_`) and recorded as a single
declaration at the given path — it is a supported way of creating a
reference, resolved through the tree on `get`.  (Only the older
`LazyLeaf`-based implementation threw when a leaf was assigned another
leaf container.) -/
theorem set_accessor_wrapped_and_recorded :
    (∀ (p q : VPath) (w : Int) (f : Bool) (c : Option Cond),
      setDecls p (.prox q) w f c = [⟨p, .fn (.prox q), w, f, c⟩]) ∧
    (∀ v : JVal,
      lazyGet (⟨[.str "a"], .imm v, 0, false, none⟩ ::
        setDecls [.str "b"] (.prox [.str "a"]) 0 false none) [.str "b"] 1 = .ok v) := by
  constructor
  · intro p q w f c
    simp [setDecls]
  · intro v
    simp [setDecls, lazyGet, lazyGetA, processDeclsA, matchValues, ancestorChain, sortByWeight,
      insertW, builderResolve, arrayStartsWith, mergeVP, walkPath, jIndex, lookupF,
      lazyResolveF, MAX_EVALUATION_DEPTH]

/-- C8 counterexample: the claim says a `set` whose value is another leaf
accessor is rejected and records nothing; the flat-store `set` instead
records exactly one resolver declaration (and, being total, raises no
error). -/
theorem set_accessor_not_rejected_counterexample :
    setDecls [.str "foo1"] (.prox [.str "foo2"]) 0 false none =
      [⟨[.str "foo1"], .fn (.prox [.str "foo2"]), 0, false, none⟩] ∧
    setDecls [.str "foo1"] (.prox [.str "foo2"]) 0 false none ≠ [] := by
  constructor
  · simp [setDecls]
  · simp [setDecls]

/-! ### C9: structural mutation through a navigated accessor -/

/-- C9: every structural mutation of the virtual tree through a navigated
accessor other than `$set` — assigning a property with dot notation,
defining a property, or deleting one — fails immediately
(`defineProperty` and `deleteProperty` traps throw; assignment, having no
`set` trap, falls through `OrdinarySet` to the receiver's
`[[DefineOwnProperty]]` and throws there), and the store's declarations
are untouched. -/
theorem proxy_mutation_always_rejected :
    ∀ (s : Store) (op : MutOp), proxyMutate s op = .error .illegalMutation := by
  intro s op
  cases op <;> rfl

/-! ### C10: the root path always matches -/

theorem setDecls_ne_nil : ∀ (v : SetVal) (p : VPath) (w : Int) (f : Bool) (c : Option Cond),
    setDecls p v w f c ≠ []
  | .undef, p, w, f, c => by simp [setDecls]
  | .str s, p, w, f, c => by simp [setDecls]
  | .num n, p, w, f, c => by simp [setDecls]
  | .bool b, p, w, f, c => by simp [setDecls]
  | .fn r, p, w, f, c => by simp [setDecls]
  | .prox q, p, w, f, c => by simp [setDecls]
  | .arr [], p, w, f, c => by cases f <;> simp [setDecls]
  | .arr (x :: rest), p, w, f, c => by
    cases f
    · have hx := setDecls_ne_nil x (p ++ [.num (-1)]) w false c
      simp only [setDecls, setDeclsElems, Bool.false_eq_true, if_false]
      exact fun hcontra => hx (List.append_eq_nil.mp hcontra).1
    · simp [setDecls]
  | .obj [], p, w, f, c => by cases f <;> simp [setDecls]
  | .obj ((k, x) :: rest), p, w, f, c => by
    cases f
    · have hx := setDecls_ne_nil x (p ++ [.str k]) w false c
      simp only [setDecls, setDeclsFields, Bool.false_eq_true, if_false]
      exact fun hcontra => hx (List.append_eq_nil.mp hcontra).1
    · simp [setDecls]

theorem insertW_length (d : Decl) (l : List Decl) :
    (insertW d l).length = l.length + 1 := by
  induction l with
  | nil => simp [insertW]
  | cons e es ih =>
    by_cases h : d.weight ≤ e.weight <;> simp [insertW, h, ih]

theorem sortByWeight_length (l : List Decl) :
    (sortByWeight l).length = l.length := by
  induction l with
  | nil => simp [sortByWeight]
  | cons d ds ih => simp [sortByWeight, insertW_length, ih]

/-- Complementary filters split a list's length. -/
theorem length_filter_not_split {α : Type} (pr : α → Bool) (l : List α) :
    (l.filter pr).length + (l.filter (fun x => !(pr x))).length = l.length := by
  induction l with
  | nil => simp
  | cons x xs ih =>
    rcases hx : pr x with _ | _ <;> simp [List.filter_cons, hx] <;> omega

/-- At the root path, every declaration of the store is matched (at the
root itself when its path is empty, as a strict descendant otherwise). -/
theorem matchValues_root_length (s : Store) :
    (matchValues s []).length = s.length := by
  unfold matchValues
  rw [sortByWeight_length]
  have hanc : ancestorChain [] = [[]] := rfl
  rw [hanc]
  simp only [List.flatMap_cons, List.flatMap_nil, List.append_nil, List.length_append]
  have hcongr : s.filter (fun d =>
      decide (0 < d.path.length) && arrayStartsWith d.path [] && !(d.path == ([] : VPath)))
        = s.filter (fun d => !(d.path == ([] : VPath))) := by
    apply List.filter_congr
    intro d hd
    rcases hp : d.path with _ | ⟨k, rest⟩ <;> simp [arrayStartsWith]
  rw [hcongr]
  exact length_filter_not_split (fun d => d.path == ([] : VPath)) s

/-- C10 (amended): every store contains at least one declaration from
construction onward (the constructor records the initial value via `set`,
which always records at least one declaration, and `set` only appends),
and the root path matches every declaration, so the not-found guard of
`get` at the root (`values.length <= 0`) can never fire.  `get` at the
root can still *propagate* a not-found error raised while resolving a
reference to an undeclared path — see the counterexample. -/
theorem root_match_never_empty :
    (∀ v : SetVal, lazyFrom v ≠ []) ∧
    (∀ (s : Store) (p : VPath) (v : SetVal) (w : Int) (f : Bool) (c : Option Cond),
      s ≠ [] → storeSet s p v w f c ≠ []) ∧
    (∀ s : Store, s ≠ [] → matchValues s [] ≠ []) := by
  refine ⟨?_, ?_, ?_⟩
  · intro v
    exact setDecls_ne_nil v [] 0 false none
  · intro s p v w f c hs
    intro hcontra
    rw [storeSet] at hcontra
    exact hs (List.append_eq_nil.mp hcontra).1
  · intro s hs
    intro hcontra
    have := matchValues_root_length s
    rw [hcontra] at this
    simp at this
    exact hs (List.length_eq_zero.mp this.symm)

/-- C10 witness: on the singleton store built from the scalar `1` the
constructor recorded a declaration, appending keeps the store nonempty,
and the root matches it. -/
theorem root_match_never_empty_witness :
    lazyFrom (.num 1) ≠ [] ∧
    (lazyFrom (.num 1) ≠ [] ∧
      storeSet (lazyFrom (.num 1)) [.str "x"] (.num 2) 0 false none ≠ []) ∧
    matchValues (lazyFrom (.num 1)) [] ≠ [] := by
  have h1 : lazyFrom (.num 1) ≠ [] := root_match_never_empty.1 (.num 1)
  exact ⟨h1,
    ⟨h1, root_match_never_empty.2.1 (lazyFrom (.num 1)) [.str "x"] (.num 2) 0 false none h1⟩,
    root_match_never_empty.2.2 (lazyFrom (.num 1)) h1⟩

/-- C10 counterexample: the claim says `get` on the root never fails with
not-found; but a store whose initial value contains a resolver returning
the accessor of an undeclared path surfaces the nested not-found error
from the root resolution. -/
theorem root_resolve_notFound_counterexample :
    lazyResolve (lazyFrom (.obj [("a", .fn (.prox [.str "zzz"]))])) [] .undef 0 =
      .error .notFound := by
  simp [lazyFrom, setDecls, setDeclsFields, toStored, lazyResolve, lazyResolveF, lazyGetA,
    processDeclsA, matchValues, ancestorChain, sortByWeight, insertW, builderResolve,
    arrayStartsWith, MAX_EVALUATION_DEPTH]

/-! ### Round-trip machinery (C6, C7) -/

/-- Structural induction for `JVal` with member hypotheses for the nested
lists. -/
theorem JVal.indOn {motive : JVal → Prop}
    (hundef : motive .undef)
    (hstr : ∀ s, motive (.str s))
    (hnum : ∀ n, motive (.num n))
    (hbool : ∀ b, motive (.bool b))
    (harr : ∀ l, (∀ x ∈ l, motive x) → motive (.arr l))
    (hobj : ∀ fs, (∀ kx ∈ fs, motive kx.2) → motive (.obj fs)) :
    ∀ v, motive v
  | .undef => hundef
  | .str s => hstr s
  | .num n => hnum n
  | .bool b => hbool b
  | .arr l => harr l (fun x hx =>
      JVal.indOn hundef hstr hnum hbool harr hobj x)
  | .obj fs => hobj fs (fun kx hkx =>
      JVal.indOn hundef hstr hnum hbool harr hobj kx.2)
termination_by v => sizeOf v
decreasing_by
  · have := List.sizeOf_lt_of_mem hx
    simp only [JVal.arr.sizeOf_spec]
    omega
  · have h1 := List.sizeOf_lt_of_mem hkx
    have h2 : sizeOf kx.2 < sizeOf kx := by
      rcases kx with ⟨k, x⟩
      simp only [Prod.mk.sizeOf_spec]
      omega
    simp only [JVal.obj.sizeOf_spec]
    omega

theorem setWJ_ne_nil : ∀ (v : JVal) (p : VPath), setWJ p v ≠ []
  | .undef, p => by simp [setWJ]
  | .str s, p => by simp [setWJ]
  | .num n, p => by simp [setWJ]
  | .bool b, p => by simp [setWJ]
  | .arr [], p => by simp [setWJ]
  | .arr (x :: rest), p => by
    have hx := setWJ_ne_nil x (p ++ [.num (-1)])
    simp only [setWJ, setWJElems]
    exact fun hcontra => hx (List.append_eq_nil.mp hcontra).1
  | .obj [], p => by simp [setWJ]
  | .obj ((k, x) :: rest), p => by
    have hx := setWJ_ne_nil x (p ++ [.str k])
    simp only [setWJ, setWJFields]
    exact fun hcontra => hx (List.append_eq_nil.mp hcontra).1

/-- `Lazy.set` on an embedded plain value records exactly the (path,
value) writes of `setWJ`, as pure weight-0 unforced immediate
declarations. -/
theorem setDecls_ofJ (v : JVal) : ∀ p : VPath,
    setDecls p (SetVal.ofJ v) 0 false none
      = (setWJ p v).map (fun w => ⟨w.1, .imm w.2, 0, false, none⟩) := by
  induction v using JVal.indOn with
  | hundef => intro p; simp [SetVal.ofJ, setDecls, setWJ, toStored, SetVal.toJ]
  | hstr s => intro p; simp [SetVal.ofJ, setDecls, setWJ, toStored, SetVal.toJ]
  | hnum n => intro p; simp [SetVal.ofJ, setDecls, setWJ, toStored, SetVal.toJ]
  | hbool b => intro p; simp [SetVal.ofJ, setDecls, setWJ, toStored, SetVal.toJ]
  | harr l ih =>
    intro p
    cases l with
    | nil => simp [SetVal.ofJ, SetVal.ofJList, setDecls, setWJ, toStored, SetVal.toJ, SetVal.toJList]
    | cons x rest =>
      have hlist : ∀ (t : List JVal), (∀ y ∈ t, ∀ q, setDecls q (SetVal.ofJ y) 0 false none
            = (setWJ q y).map (fun w => ⟨w.1, .imm w.2, 0, false, none⟩)) →
          ∀ q, setDeclsElems q (SetVal.ofJList t) 0 false none
            = (setWJElems q t).map (fun w => ⟨w.1, .imm w.2, 0, false, none⟩) := by
        intro t
        induction t with
        | nil => intro _ q; simp [SetVal.ofJList, setDeclsElems, setWJElems]
        | cons y ys ihy =>
          intro hmem q
          have h1 := hmem y (by simp) (q ++ [PKey.num (-1)])
          have h2 := ihy (fun z hz => hmem z (by simp [hz])) q
          rw [SetVal.ofJList, setDeclsElems, setWJElems, List.map_append, h1, h2]
      have hmain := hlist (x :: rest) (fun y hy q => ih y hy q) p
      rw [show SetVal.ofJ (.arr (x :: rest)) = .arr (SetVal.ofJ x :: SetVal.ofJList rest) by
            rw [SetVal.ofJ, SetVal.ofJList]]
      rw [show setWJ p (.arr (x :: rest)) = setWJElems p (x :: rest) by simp [setWJ]]
      rw [show setDecls p (.arr (SetVal.ofJ x :: SetVal.ofJList rest)) 0 false none
            = setDeclsElems p (SetVal.ofJ x :: SetVal.ofJList rest) 0 false none by
            simp [setDecls]]
      rw [show (SetVal.ofJ x :: SetVal.ofJList rest : List SetVal) = SetVal.ofJList (x :: rest) by
            rw [SetVal.ofJList]]
      exact hmain
  | hobj fs ih =>
    intro p
    cases fs with
    | nil => simp [SetVal.ofJ, SetVal.ofJFields, setDecls, setWJ, toStored, SetVal.toJ, SetVal.toJFields]
    | cons kx rest =>
      have hlist : ∀ (t : List (String × JVal)),
          (∀ ky ∈ t, ∀ q, setDecls q (SetVal.ofJ ky.2) 0 false none
            = (setWJ q ky.2).map (fun w => ⟨w.1, .imm w.2, 0, false, none⟩)) →
          ∀ q, setDeclsFields q (SetVal.ofJFields t) 0 false none
            = (setWJFields q t).map (fun w => ⟨w.1, .imm w.2, 0, false, none⟩) := by
        intro t
        induction t with
        | nil => intro _ q; simp [SetVal.ofJFields, setDeclsFields, setWJFields]
        | cons ky ys ihy =>
          intro hmem q
          rcases ky with ⟨k, y⟩
          have h1 := hmem ⟨k, y⟩ (by simp) (q ++ [PKey.str k])
          have h2 := ihy (fun z hz => hmem z (by simp [hz])) q
          rw [SetVal.ofJFields, setDeclsFields, setWJFields, List.map_append, h1, h2]
      rcases kx with ⟨k, x⟩
      have hmain := hlist ((k, x) :: rest) (fun ky hky q => ih ky hky q) p
      rw [show SetVal.ofJ (.obj ((k, x) :: rest)) = .obj ((k, SetVal.ofJ x) :: SetVal.ofJFields rest) by
            rw [SetVal.ofJ, SetVal.ofJFields]]
      rw [show setWJ p (.obj ((k, x) :: rest)) = setWJFields p ((k, x) :: rest) by simp [setWJ]]
      rw [show setDecls p (.obj ((k, SetVal.ofJ x) :: SetVal.ofJFields rest)) 0 false none
            = setDeclsFields p ((k, SetVal.ofJ x) :: SetVal.ofJFields rest) 0 false none by
            simp [setDecls]]
      rw [show ((k, SetVal.ofJ x) :: SetVal.ofJFields rest : List (String × SetVal))
            = SetVal.ofJFields ((k, x) :: rest) by rw [SetVal.ofJFields]]
      exact hmain

/-- The writes of `set` at a prefix path are the root writes with the
prefix prepended. -/
theorem setWJ_shift (v : JVal) : ∀ p : VPath,
    setWJ p v = (setWJ [] v).map (fun w => (p ++ w.1, w.2)) := by
  induction v using JVal.indOn with
  | hundef => intro p; simp [setWJ]
  | hstr s => intro p; simp [setWJ]
  | hnum n => intro p; simp [setWJ]
  | hbool b => intro p; simp [setWJ]
  | harr l ih =>
    intro p
    cases l with
    | nil => simp [setWJ]
    | cons x rest =>
      have hlist : ∀ (t : List JVal), (∀ y ∈ t, ∀ q, setWJ q y
            = (setWJ [] y).map (fun w => (q ++ w.1, w.2))) →
          ∀ q, setWJElems q t = (setWJElems [] t).map (fun w => (q ++ w.1, w.2)) := by
        intro t
        induction t with
        | nil => intro _ q; simp [setWJElems]
        | cons y ys ihy =>
          intro hmem q
          have h1 := hmem y (by simp) (q ++ [PKey.num (-1)])
          have h2 := hmem y (by simp) ([PKey.num (-1)] : VPath)
          have h3 := ihy (fun z hz => hmem z (by simp [hz])) q
          rw [setWJElems, setWJElems, List.map_append, h1, h3]
          simp only [List.nil_append]
          rw [h2, List.map_map]
          congr 1
          apply List.map_congr_left
          intro w hw
          simp
      have hmain := hlist (x :: rest) (fun y hy q => ih y hy q) p
      rw [show setWJ p (.arr (x :: rest)) = setWJElems p (x :: rest) by simp [setWJ],
        show setWJ [] (.arr (x :: rest)) = setWJElems [] (x :: rest) by simp [setWJ]]
      exact hmain
  | hobj fs ih =>
    intro p
    cases fs with
    | nil => simp [setWJ]
    | cons kx rest =>
      have hlist : ∀ (t : List (String × JVal)), (∀ ky ∈ t, ∀ q, setWJ q ky.2
            = (setWJ [] ky.2).map (fun w => (q ++ w.1, w.2))) →
          ∀ q, setWJFields q t = (setWJFields [] t).map (fun w => (q ++ w.1, w.2)) := by
        intro t
        induction t with
        | nil => intro _ q; simp [setWJFields]
        | cons ky ys ihy =>
          intro hmem q
          rcases ky with ⟨k, y⟩
          have h1 := hmem ⟨k, y⟩ (by simp) (q ++ [PKey.str k])
          have h2 := hmem ⟨k, y⟩ (by simp) ([PKey.str k] : VPath)
          have h3 := ihy (fun z hz => hmem z (by simp [hz])) q
          rw [setWJFields, setWJFields, List.map_append, h1, h3]
          simp only [List.nil_append]
          rw [h2, List.map_map]
          congr 1
          apply List.map_congr_left
          intro w hw
          simp
      rcases kx with ⟨k, x⟩
      have hmain := hlist ((k, x) :: rest) (fun ky hky q => ih ky hky q) p
      rw [show setWJ p (.obj ((k, x) :: rest)) = setWJFields p ((k, x) :: rest) by simp [setWJ],
        show setWJ [] (.obj ((k, x) :: rest)) = setWJFields [] ((k, x) :: rest) by simp [setWJ]]
      exact hmain

theorem updF_comp (fs : List (String × JVal)) (k : String) (f g : JVal → JVal) :
    updF (updF fs k f) k g = updF fs k (fun x => g (f x)) := by
  induction fs with
  | nil => simp [updF]
  | cons kv t ih =>
    rcases kv with ⟨k', v⟩
    by_cases h : k' = k <;> simp [updF, h, ih]

theorem updF_fresh (fs : List (String × JVal)) (k : String) (f : JVal → JVal)
    (h : (fs.map Prod.fst).contains k = false) :
    updF fs k f = fs ++ [(k, f .undef)] := by
  induction fs with
  | nil => simp [updF]
  | cons kv t ih =>
    rcases kv with ⟨k', v⟩
    simp only [List.map_cons, List.contains_cons, Bool.or_eq_false_iff] at h
    have hne : ¬ k' = k := by
      intro hcontra
      rw [hcontra] at h
      simp at h
    simp [updF, hne, ih h.2]

/-- Applying writes splits over list append. -/
theorem applyW_append (t : JVal) (a b : List (VPath × JVal)) :
    applyW t (a ++ b) = applyW (applyW t a) b := by
  simp [applyW, List.foldl_append]

/-- Writes all behind the same fresh string key localise to that field:
the batch updates exactly key `k`, applying its stripped writes to the
previous field value. -/
theorem applyW_str_batch (k : String) : ∀ (ws : List (VPath × JVal)) (t : JVal),
    ws ≠ [] → (∀ l, t ≠ .arr l) →
    applyW t (ws.map (fun w => (PKey.str k :: w.1, w.2)))
      = .obj (updF (fieldsOf t) k (fun old => applyW old ws))
  | [], t, hne, _ => absurd rfl hne
  | [w], t, _, ht => by
    have hfun : (fun old => applyW old [w]) = (fun old => mergeVP old w.2 w.1) := by
      funext old
      simp [applyW]
    rw [hfun]
    rcases t with _ | _ | _ | _ | l | kvs
    · simp [applyW, mergeVP, fieldsOf, updF]
    · simp [applyW, mergeVP, fieldsOf, updF]
    · simp [applyW, mergeVP, fieldsOf, updF]
    · simp [applyW, mergeVP, fieldsOf, updF]
    · exact absurd rfl (ht l)
    · simp [applyW, mergeVP, fieldsOf]
  | w1 :: w2 :: rest, t, _, ht => by
    have hstep : applyW t ((w1 :: w2 :: rest).map (fun w => (PKey.str k :: w.1, w.2)))
        = applyW (mergeVP t w1.2 (PKey.str k :: w1.1))
            ((w2 :: rest).map (fun w => (PKey.str k :: w.1, w.2))) := by
      simp [applyW]
    rw [hstep]
    have hmid : mergeVP t w1.2 (PKey.str k :: w1.1)
        = .obj (updF (fieldsOf t) k (fun old => mergeVP old w1.2 w1.1)) := by
      rcases t with _ | _ | _ | _ | l | kvs
      · simp [mergeVP, fieldsOf, updF]
      · simp [mergeVP, fieldsOf, updF]
      · simp [mergeVP, fieldsOf, updF]
      · simp [mergeVP, fieldsOf, updF]
      · exact absurd rfl (ht l)
      · simp [mergeVP, fieldsOf]
    rw [hmid]
    rw [applyW_str_batch k (w2 :: rest) _ (by simp) (by intro l h; exact JVal.noConfusion h)]
    rw [show fieldsOf (.obj (updF (fieldsOf t) k (fun old => mergeVP old w1.2 w1.1)))
          = updF (fieldsOf t) k (fun old => mergeVP old w1.2 w1.1) from rfl]
    rw [updF_comp]
    rfl

/-- A single write behind a numeric key pushes one freshly built element
onto the array. -/
theorem applyW_num_single (j : Int) (q : VPath) (u : JVal) (t : JVal)
    (ht : t = .undef ∨ ∃ l, t = .arr l) :
    applyW t [(PKey.num j :: q, u)] = .arr (elemsOf t ++ [mergeVP .undef u q]) := by
  rcases ht with rfl | ⟨l, rfl⟩
  · simp [applyW, mergeVP, elemsOf]
  · simp [applyW, mergeVP, elemsOf]

/-- Reconstruction of a record: applying the per-key write batches onto
an accumulated record with fresh distinct keys rebuilds the record,
fields in declaration order. -/
theorem applyW_obj_recon : ∀ (fs : List (String × JVal)) (t : JVal) (done : List (String × JVal)),
    (∀ kx ∈ fs, applyW .undef (setWJ [] kx.2) = kx.2) →
    (∀ kx ∈ fs, (done.map Prod.fst).contains kx.1 = false) →
    nodupKeys fs = true →
    ((t = .undef ∧ done = [] ∧ fs ≠ []) ∨ t = .obj done) →
    applyW t (setWJFields [] fs) = .obj (done ++ fs) := by
  intro fs
  induction fs with
  | nil =>
    intro t done _ _ _ ht
    rcases ht with ⟨_, _, hne⟩ | rfl
    · exact absurd rfl hne
    · simp [setWJFields, applyW]
  | cons kx rest ih =>
    intro t done hrec hfresh hnodup ht
    rcases kx with ⟨k, x⟩
    have hsplit : setWJFields [] ((k, x) :: rest) = setWJ [PKey.str k] x ++ setWJFields [] rest := by
      simp [setWJFields]
    rw [hsplit, applyW_append]
    have hshift : setWJ [PKey.str k] x = (setWJ [] x).map (fun w => (PKey.str k :: w.1, w.2)) := by
      rw [setWJ_shift]
      simp
    have htne : ∀ l, t ≠ .arr l := by
      rcases ht with ⟨rfl, _, _⟩ | rfl <;> intro l h <;> exact JVal.noConfusion h
    have hbatch := applyW_str_batch k (setWJ [] x) t (setWJ_ne_nil x []) htne
    rw [hshift, hbatch]
    have hflds : fieldsOf t = done := by
      rcases ht with ⟨rfl, rfl, _⟩ | rfl <;> simp [fieldsOf]
    rw [hflds, updF_fresh done k _ (hfresh ⟨k, x⟩ (by simp))]
    have hx1 : applyW JVal.undef (setWJ [] x) = x := hrec ⟨k, x⟩ (by simp)
    simp only [hx1]
    simp only [nodupKeys, Bool.and_eq_true, Bool.not_eq_true'] at hnodup
    have hnodup' : nodupKeys rest = true := hnodup.2
    have hknotin : ((rest.map Prod.fst).contains k) = false := hnodup.1
    have hfresh' : ∀ ky ∈ rest, (((done ++ [(k, x)]).map Prod.fst).contains ky.1) = false := by
      intro ky hky
      have h1 := hfresh ky (by simp [hky])
      have h2 : (ky.1 == k) = false := by
        simp only [List.contains_eq_any_beq, List.any_eq_false] at hknotin
        have hk := hknotin ky.1 (by simp; exact ⟨ky.2, by rcases ky with ⟨a, b⟩; exact hky⟩)
        simp at hk ⊢
        exact fun hc => hk hc.symm
      simp only [List.map_append, List.map_cons, List.map_nil, List.contains_eq_any_beq,
        List.any_append, List.any_cons, List.any_nil] at h1 ⊢
      simp [h1, h2]
    have hfin := ih (.obj (done ++ [(k, x)])) (done ++ [(k, x)])
      (fun ky hky => hrec ky (by simp [hky]))
      hfresh' hnodup' (Or.inr rfl)
    rw [hfin]
    simp

/-- Reconstruction of a list: the per-element write batches (each a
single declaration under the shared append marker) push the elements in
order onto the accumulated array. -/
theorem applyW_arr_recon : ∀ (l : List JVal) (t : JVal) (acc : List JVal),
    (∀ x ∈ l, applyW .undef (setWJ [] x) = x ∧ (setWJ [] x).length = 1) →
    ((t = .undef ∧ acc = [] ∧ l ≠ []) ∨ t = .arr acc) →
    applyW t (setWJElems [] l) = .arr (acc ++ l) := by
  intro l
  induction l with
  | nil =>
    intro t acc _ ht
    rcases ht with ⟨_, _, hne⟩ | rfl
    · exact absurd rfl hne
    · simp [setWJElems, applyW]
  | cons x rest ih =>
    intro t acc hx ht
    have hsplit : setWJElems [] (x :: rest) = setWJ [PKey.num (-1)] x ++ setWJElems [] rest := by
      simp [setWJElems]
    rw [hsplit, applyW_append]
    obtain ⟨hx1, hx2⟩ := hx x (by simp)
    obtain ⟨w0, hw0⟩ := List.length_eq_one.mp hx2
    have hshift : setWJ [PKey.num (-1)] x = [(PKey.num (-1) :: w0.1, w0.2)] := by
      rw [setWJ_shift, hw0]
      simp
    have htarr : t = .undef ∨ ∃ l0, t = .arr l0 := by
      rcases ht with ⟨rfl, _, _⟩ | rfl
      · exact Or.inl rfl
      · exact Or.inr ⟨acc, rfl⟩
    rw [hshift, applyW_num_single (-1) w0.1 w0.2 t htarr]
    have hmv : mergeVP .undef w0.2 w0.1 = x := by
      have hap : applyW JVal.undef [w0] = x := by rw [← hw0]; exact hx1
      simpa [applyW] using hap
    have helems : elemsOf t = acc := by
      rcases ht with ⟨rfl, rfl, _⟩ | rfl <;> simp [elemsOf]
    rw [hmv, helems]
    have hfin := ih (.arr (acc ++ [x])) (acc ++ [x])
      (fun y hy => hx y (by simp [hy])) (Or.inr rfl)
    rw [hfin]
    simp

/-- Membership form of list round-trippability: each element is itself
round-trippable and records exactly one declaration. -/
theorem roundTrippableElems_mem : ∀ (l : List JVal), roundTrippableElems l = true →
    ∀ x ∈ l, roundTrippable x = true ∧ writeCount x = 1 := by
  intro l
  induction l with
  | nil => intro _ x hx; simp at hx
  | cons y rest ih =>
    intro h x hx
    have h' : (roundTrippable y && (writeCount y == 1) && roundTrippableElems rest) = true := by
      rw [← h]; simp [roundTrippableElems]
    simp only [Bool.and_eq_true, beq_iff_eq] at h'
    rcases List.mem_cons.mp hx with rfl | hx'
    · exact ⟨h'.1.1, h'.1.2⟩
    · exact ih h'.2 x hx'

/-- Membership form of record round-trippability: each field value is
itself round-trippable. -/
theorem roundTrippableFields_mem : ∀ (fs : List (String × JVal)), roundTrippableFields fs = true →
    ∀ kx ∈ fs, roundTrippable kx.2 = true := by
  intro fs
  induction fs with
  | nil => intro _ kx hkx; simp at hkx
  | cons ky rest ih =>
    intro h kx hkx
    rcases ky with ⟨k, y⟩
    have h' : (roundTrippable y && roundTrippableFields rest) = true := by
      rw [← h]; simp [roundTrippableFields]
    simp only [Bool.and_eq_true] at h'
    rcases List.mem_cons.mp hkx with rfl | hkx'
    · exact h'.1
    · exact ih h'.2 kx hkx'

/-- The key reconstruction lemma: applying the writes recorded by `set`
for a round-trippable value onto an undefined target rebuilds the value
exactly. -/
theorem applyW_setWJ_root : ∀ (v : JVal), roundTrippable v = true →
    applyW .undef (setWJ [] v) = v := by
  intro v
  induction v using JVal.indOn with
  | hundef => intro _; simp [setWJ, applyW, mergeVP]
  | hstr s => intro _; simp [setWJ, applyW, mergeVP]
  | hnum n => intro _; simp [setWJ, applyW, mergeVP]
  | hbool b => intro _; simp [setWJ, applyW, mergeVP]
  | harr l ih =>
    intro h
    cases l with
    | nil => simp [setWJ, applyW, mergeVP, lodashMerge]
    | cons x rest =>
      have hel : roundTrippableElems (x :: rest) = true := by
        rw [← h]; simp [roundTrippable]
      have hmem := roundTrippableElems_mem (x :: rest) hel
      have hws : setWJ [] (JVal.arr (x :: rest)) = setWJElems [] (x :: rest) := by
        simp [setWJ]
      rw [hws, applyW_arr_recon (x :: rest) .undef []
        (fun y hy => ⟨ih y hy (hmem y hy).1, (hmem y hy).2⟩)
        (Or.inl ⟨rfl, rfl, by simp⟩)]
      simp
  | hobj fs ih =>
    intro h
    cases fs with
    | nil => simp [setWJ, applyW, mergeVP, lodashMerge]
    | cons kx rest =>
      have hob : (nodupKeys (kx :: rest) && roundTrippableFields (kx :: rest)) = true := by
        rw [← h]; simp [roundTrippable]
      simp only [Bool.and_eq_true] at hob
      have hmem := roundTrippableFields_mem (kx :: rest) hob.2
      have hws : setWJ [] (JVal.obj (kx :: rest)) = setWJFields [] (kx :: rest) := by
        rcases kx with ⟨k, x⟩
        simp [setWJ]
      rw [hws, applyW_obj_recon (kx :: rest) .undef []
        (fun ky hky => ih ky hky (hmem ky hky))
        (fun ky _ => rfl)
        hob.1
        (Or.inl ⟨rfl, rfl, by simp⟩)]
      simp

/-- The constructor's store: one pure weight-0 unforced declaration per
recorded write. -/
theorem fromJ_eq (v : JVal) :
    fromJ v = (setWJ [] v).map (fun w => ⟨w.1, .imm w.2, 0, false, none⟩) := by
  simp [fromJ, lazyFrom, setDecls_ofJ]

/-- A stable sort of declarations all of equal weight is the identity. -/
theorem sortByWeight_const : ∀ (s : List Decl), (∀ d ∈ s, d.weight = 0) →
    sortByWeight s = s := by
  intro s
  induction s with
  | nil => intro _; simp [sortByWeight]
  | cons d ds ih =>
    intro h
    rw [sortByWeight, ih (fun e he => h e (by simp [he]))]
    cases ds with
    | nil => simp [insertW]
    | cons e es =>
      have hd0 : d.weight = 0 := h d (by simp)
      have he0 : e.weight = 0 := h e (by simp)
      simp [insertW, hd0, he0]

/-- Every write of a decomposed list carries a non-root path (it starts
with the append marker or deeper). -/
theorem setWJElems_paths (l : List JVal) : ∀ w ∈ setWJElems [] l, w.1 ≠ [] := by
  induction l with
  | nil => intro w hw; simp [setWJElems] at hw
  | cons x rest ih =>
    intro w hw
    have hsplit : setWJElems [] (x :: rest) = setWJ [PKey.num (-1)] x ++ setWJElems [] rest := by
      simp [setWJElems]
    rw [hsplit] at hw
    rcases List.mem_append.mp hw with hm | hm
    · rw [setWJ_shift] at hm
      obtain ⟨w0, _, rfl⟩ := List.mem_map.mp hm
      simp
    · exact ih w hm

/-- Every write of a decomposed record carries a non-root path (it starts
with the field key or deeper). -/
theorem setWJFields_paths (fs : List (String × JVal)) : ∀ w ∈ setWJFields [] fs, w.1 ≠ [] := by
  induction fs with
  | nil => intro w hw; simp [setWJFields] at hw
  | cons kx rest ih =>
    intro w hw
    rcases kx with ⟨k, x⟩
    have hsplit : setWJFields [] ((k, x) :: rest) = setWJ [PKey.str k] x ++ setWJFields [] rest := by
      simp [setWJFields]
    rw [hsplit] at hw
    rcases List.mem_append.mp hw with hm | hm
    · rw [setWJ_shift] at hm
      obtain ⟨w0, _, rfl⟩ := List.mem_map.mp hm
      simp
    · exact ih w hm

/-- The writes recorded at the root are either the single root write of
an atomic or empty value, or all carry non-root paths (composite
decomposition). -/
theorem setWJ_root_paths (v : JVal) :
    setWJ [] v = [([], v)] ∨ ∀ w ∈ setWJ [] v, w.1 ≠ [] := by
  rcases v with _ | s | n | b | l | fs
  · exact Or.inl (by simp [setWJ])
  · exact Or.inl (by simp [setWJ])
  · exact Or.inl (by simp [setWJ])
  · exact Or.inl (by simp [setWJ])
  · cases l with
    | nil => exact Or.inl (by simp [setWJ])
    | cons x rest =>
      right
      have hws : setWJ [] (JVal.arr (x :: rest)) = setWJElems [] (x :: rest) := by
        simp [setWJ]
      rw [hws]
      exact setWJElems_paths (x :: rest)
  · cases fs with
    | nil => exact Or.inl (by simp [setWJ])
    | cons kx rest =>
      right
      have hws : setWJ [] (JVal.obj (kx :: rest)) = setWJFields [] (kx :: rest) := by
        rcases kx with ⟨k, x⟩
        simp [setWJ]
      rw [hws]
      exact setWJFields_paths (kx :: rest)

/-- `matchValues` at the root is the identity on a store whose
declarations all have weight 0 and whose paths are either all the root or
all non-root: the root declaration list matches in store order. -/
theorem matchValues_root_id (s : Store) (h0 : ∀ d ∈ s, d.weight = 0)
    (hsplit : (∀ d ∈ s, d.path = []) ∨ (∀ d ∈ s, d.path ≠ [])) :
    matchValues s [] = s := by
  have hanc : ancestorChain [] = [[]] := by
    simp [ancestorChain]
  rw [matchValues, hanc]
  simp only [List.flatMap_cons, List.flatMap_nil, List.append_nil]
  rcases hsplit with hall | hnone
  · have hfa : s.filter (fun d => d.path == ([] : VPath)) = s :=
      List.filter_eq_self.mpr (fun d hd => by simp [hall d hd])
    have hfd : s.filter (fun d => decide (0 < d.path.length) && arrayStartsWith d.path [] && !(d.path == ([] : VPath))) = [] := by
      rw [List.filter_eq_nil_iff]
      intro d hd
      simp [hall d hd]
    rw [hfa, hfd, List.append_nil]
    exact sortByWeight_const s h0
  · have hfa : s.filter (fun d => d.path == ([] : VPath)) = [] := by
      rw [List.filter_eq_nil_iff]
      intro d hd
      simp [hnone d hd]
    have hfd : s.filter (fun d => decide (0 < d.path.length) && arrayStartsWith d.path [] && !(d.path == ([] : VPath))) = s := by
      apply List.filter_eq_self.mpr
      intro d hd
      have hlen : 0 < d.path.length := List.length_pos.mpr (hnone d hd)
      simp [arrayStartsWith, hlen, hnone d hd]
    rw [hfa, hfd, List.nil_append]
    exact sortByWeight_const s h0

/-- The result builder on unforced weight-0 writes is the in-order fold
of `ValuePathUtils.merge` from undefined. -/
theorem builderResolve_unforced (ws : List (VPath × JVal)) :
    builderResolve (ws.map (fun w => ⟨w.1, w.2, false, 0⟩)) = applyW .undef ws := by
  suffices h : ∀ t : JVal, (ws.map (fun w => (⟨w.1, w.2, false, 0⟩ : BWrite))).foldl
      (fun t w => if w.force then forcePut t w.value w.path else mergeVP t w.value w.path) t
      = ws.foldl (fun t w => mergeVP t w.2 w.1) t by
    exact h .undef
  induction ws with
  | nil => intro t; simp
  | cons w rest ih => intro t; simp [ih]

/-- C6 (amended): for a round-trippable initial value — every record with
distinct keys and every value nested inside a list recording exactly one
declaration — resolving the root of the store built from it, with no
further `set` calls, returns the value itself. -/
theorem round_trip (v : JVal) (h : roundTrippable v = true) :
    lazyResolve (fromJ v) [] .undef 0 = .ok v := by
  rw [lazyResolve_eq, if_neg (by simp [MAX_EVALUATION_DEPTH])]
  have hstore := fromJ_eq v
  have hw0 : ∀ d ∈ fromJ v, d.weight = 0 := by
    rw [hstore]
    intro d hd
    obtain ⟨w, _, rfl⟩ := List.mem_map.mp hd
    rfl
  have hpure : ∀ d ∈ fromJ v, isPureDecl d = true := by
    rw [hstore]
    intro d hd
    obtain ⟨w, _, rfl⟩ := List.mem_map.mp hd
    rfl
  have hdich : (∀ d ∈ fromJ v, d.path = []) ∨ (∀ d ∈ fromJ v, d.path ≠ []) := by
    rcases setWJ_root_paths v with hat | hcomp
    · left
      rw [hstore, hat]
      intro d hd
      simp at hd
      simp [hd]
    · right
      rw [hstore]
      intro d hd
      obtain ⟨w, hwmem, rfl⟩ := List.mem_map.mp hd
      exact hcomp w hwmem
  have hmatch : matchValues (fromJ v) [] = fromJ v := matchValues_root_id _ hw0 hdich
  have hne : fromJ v ≠ [] := by
    rw [hstore]
    intro hc
    exact setWJ_ne_nil v [] (List.map_eq_nil_iff.mp hc)
  have hbuild : builderResolve ((fromJ v).map declWrite) = v := by
    rw [hstore, List.map_map]
    have hcomp : (declWrite ∘ (fun w : VPath × JVal => (⟨w.1, .imm w.2, 0, false, none⟩ : Decl)))
        = (fun w : VPath × JVal => (⟨w.1, w.2, false, 0⟩ : BWrite)) := by
      funext w
      rfl
    rw [hcomp, builderResolve_unforced, applyW_setWJ_root v h]
  obtain ⟨d0, ds, hsv⟩ := List.exists_cons_of_ne_nil hne
  have hpure' : ∀ d ∈ (d0 :: ds), isPureDecl d = true := by
    rw [← hsv]
    exact hpure
  have hproc : ∀ recur, processDeclsA recur (d0 :: ds) 1 (d0 :: ds)
      = .ok ((d0 :: ds).map declWrite) :=
    fun recur => processDeclsA_pure recur (d0 :: ds) 1 (d0 :: ds) hpure'
  have hmatch' : matchValues (d0 :: ds) [] = d0 :: ds := by
    rw [← hsv]
    exact hmatch
  have hbuild' : builderResolve ((d0 :: ds).map declWrite) = v := by
    rw [← hsv]
    exact hbuild
  have hg : lazyGet (fromJ v) [] 1 = .ok v := by
    simp only [lazyGet, lazyGetA, hsv, hmatch', hproc, hbuild']
    rcases v with _ | s | n | b | l | fs <;> simp [walkPath]
  rw [hg]

/-- C6 counterexample: a two-key record nested inside a list is
decomposed into two declarations below the shared append marker, and the
merge pushes one array element per declaration, so the round-trip of
`[{x:1, y:2}]` resolves to `[{x:1}, {y:2}]`, not the original value. -/
theorem round_trip_counterexample :
    lazyResolve (fromJ (.arr [.obj [("x", .num 1), ("y", .num 2)]])) [] .undef 0
      = .ok (.arr [.obj [("x", .num 1)], .obj [("y", .num 2)]]) ∧
    JVal.arr [.obj [("x", .num 1)], .obj [("y", .num 2)]]
      ≠ .arr [.obj [("x", .num 1), ("y", .num 2)]] := by
  constructor
  · have hg : lazyGet (fromJ (.arr [.obj [("x", .num 1), ("y", .num 2)]])) [] 1
        = .ok (.arr [.obj [("x", .num 1)], .obj [("y", .num 2)]]) := by
      simp [lazyGet, lazyGetA, fromJ, lazyFrom, SetVal.ofJ, SetVal.ofJList, SetVal.ofJFields,
        setDecls, setDeclsElems, setDeclsFields, toStored, SetVal.toJ, SetVal.toJList,
        SetVal.toJFields, processDeclsA, matchValues, ancestorChain, sortByWeight, insertW,
        builderResolve, arrayStartsWith, mergeVP, walkPath, updF]
    rw [lazyResolve_eq, if_neg (by simp [MAX_EVALUATION_DEPTH]), hg]
  · simp

/-- Witness for `round_trip`: a nested record with distinct keys and
single-declaration list elements round-trips exactly. -/
theorem round_trip_witness :
    roundTrippable (JVal.obj [("a", .num 1), ("b", .arr [.str "x", .bool true]),
      ("c", .obj [("d", .num 2)])]) = true ∧
    lazyResolve (fromJ (JVal.obj [("a", .num 1), ("b", .arr [.str "x", .bool true]),
      ("c", .obj [("d", .num 2)])])) [] .undef 0
      = .ok (JVal.obj [("a", .num 1), ("b", .arr [.str "x", .bool true]),
        ("c", .obj [("d", .num 2)])]) :=
  ⟨by simp [roundTrippable, roundTrippableElems, roundTrippableFields, nodupKeys,
      writeCount, setWJ, setWJElems, setWJFields],
   round_trip _ (by simp [roundTrippable, roundTrippableElems, roundTrippableFields, nodupKeys,
      writeCount, setWJ, setWJElems, setWJFields])⟩

/-- The element loop of `Lazy.set` is the per-element flat map of the
recursive call at the append marker. -/
theorem setDeclsElems_flatMap (p : VPath) (w : Int) (force : Bool) (c : Option Cond) :
    ∀ l : List SetVal, setDeclsElems p l w force c
      = l.flatMap (fun y => setDecls (p ++ [PKey.num (-1)]) y w force c) := by
  intro l
  induction l with
  | nil => simp [setDeclsElems]
  | cons x rest ih => simp [setDeclsElems, ih]

/-- The entry loop of `Lazy.set` is the per-key flat map of the recursive
call at the key. -/
theorem setDeclsFields_flatMap (p : VPath) (w : Int) (force : Bool) (c : Option Cond) :
    ∀ fs : List (String × SetVal), setDeclsFields p fs w force c
      = fs.flatMap (fun ky => setDecls (p ++ [PKey.str ky.1]) ky.2 w force c) := by
  intro fs
  induction fs with
  | nil => simp [setDeclsFields]
  | cons kx rest ih =>
    rcases kx with ⟨k, x⟩
    simp [setDeclsFields, ih]

/-- A non-empty list records at least one write. -/
theorem setWJElems_ne_nil (l : List JVal) (h : l ≠ []) : setWJElems [] l ≠ [] := by
  rcases l with _ | ⟨x, rest⟩
  · exact absurd rfl h
  · have hx := setWJ_ne_nil x [PKey.num (-1)]
    have hsplit : setWJElems [] (x :: rest) = setWJ [PKey.num (-1)] x ++ setWJElems [] rest := by
      simp [setWJElems]
    rw [hsplit]
    intro hc
    exact hx (List.append_eq_nil.mp hc).1

/-- The root `get` of a non-empty store of pure weight-0 declarations
whose paths are uniformly root or non-root returns the builder fold of
its writes in store order. -/
theorem lazyGet_root_pure (s : Store) (v : JVal)
    (hw0 : ∀ d ∈ s, d.weight = 0)
    (hpure : ∀ d ∈ s, isPureDecl d = true)
    (hdich : (∀ d ∈ s, d.path = []) ∨ (∀ d ∈ s, d.path ≠ []))
    (hne : s ≠ [])
    (hbuild : builderResolve (s.map declWrite) = v) :
    lazyGet s [] 1 = .ok v := by
  have hmatch : matchValues s [] = s := matchValues_root_id s hw0 hdich
  obtain ⟨d0, ds, hsv⟩ := List.exists_cons_of_ne_nil hne
  subst hsv
  have hproc : ∀ recur, processDeclsA recur (d0 :: ds) 1 (d0 :: ds)
      = .ok ((d0 :: ds).map declWrite) :=
    fun recur => processDeclsA_pure recur (d0 :: ds) 1 (d0 :: ds) hpure
  simp only [lazyGet, lazyGetA, hmatch, hproc, hbuild]
  rcases v with _ | s0 | n | b | l | fs <;> simp [walkPath]

/-- C7 (amended): `set` decomposes a non-empty unforced list per element
(recursing at `path ++ [append marker]`) and a non-empty unforced record
per key (recursing at `path ++ [key]`), and records a single declaration
in every other case (scalar, function, accessor, empty composite, or
forced).  For two non-empty lists whose elements are round-trippable and
each record exactly one declaration, a later same-weight unforced `set`
of the second list at the root of a store built from the first resolves
to the concatenation of the two lists, order preserved, no
deduplication; a list element recording several declarations fragments
instead (see the counterexample). -/
theorem set_decomposition_and_append :
    (∀ (p : VPath) (x : SetVal) (l : List SetVal) (w : Int) (c : Option Cond),
      setDecls p (.arr (x :: l)) w false c
        = (x :: l).flatMap (fun y => setDecls (p ++ [PKey.num (-1)]) y w false c)) ∧
    (∀ (p : VPath) (kx : String × SetVal) (fs : List (String × SetVal)) (w : Int) (c : Option Cond),
      setDecls p (.obj (kx :: fs)) w false c
        = (kx :: fs).flatMap (fun ky => setDecls (p ++ [PKey.str ky.1]) ky.2 w false c)) ∧
    (∀ (p : VPath) (v : SetVal) (w : Int) (force : Bool) (c : Option Cond),
      setAtomic v force = true →
      setDecls p v w force c = [⟨p, toStored v, w, force, c⟩]) ∧
    (∀ (l1 l2 : List JVal), l1 ≠ [] → l2 ≠ [] →
      roundTrippableElems l1 = true → roundTrippableElems l2 = true →
      lazyResolve (storeSet (fromJ (.arr l1)) [] (SetVal.ofJ (.arr l2)) 0 false none) [] .undef 0
        = .ok (.arr (l1 ++ l2))) := by
  refine ⟨?_, ?_, ?_, ?_⟩
  · intro p x l w c
    have h1 : setDecls p (.arr (x :: l)) w false c = setDeclsElems p (x :: l) w false c := by
      simp [setDecls]
    rw [h1, setDeclsElems_flatMap]
  · intro p kx fs w c
    have h1 : setDecls p (.obj (kx :: fs)) w false c = setDeclsFields p (kx :: fs) w false c := by
      simp [setDecls]
    rw [h1, setDeclsFields_flatMap]
  · intro p v w force c hA
    rcases v with _ | s | n | b | r | q | l | fs
    · simp [setDecls, toStored]
    · simp [setDecls, toStored]
    · simp [setDecls, toStored]
    · simp [setDecls, toStored]
    · simp [setDecls, toStored]
    · simp [setDecls, toStored]
    · rcases l with _ | ⟨x, rest⟩
      · simp [setDecls]
      · have hf : force = true := by simpa [setAtomic] using hA
        subst hf
        simp [setDecls]
    · rcases fs with _ | ⟨kx, rest⟩
      · simp [setDecls]
      · have hf : force = true := by simpa [setAtomic] using hA
        subst hf
        simp [setDecls]
  · intro l1 l2 hn1 hn2 h1 h2
    have hsw1 : setWJ [] (JVal.arr l1) = setWJElems [] l1 := by
      rcases l1 with _ | ⟨x, rest⟩
      · exact absurd rfl hn1
      · simp [setWJ]
    have hsw2 : setWJ [] (JVal.arr l2) = setWJElems [] l2 := by
      rcases l2 with _ | ⟨x, rest⟩
      · exact absurd rfl hn2
      · simp [setWJ]
    have hstore : storeSet (fromJ (.arr l1)) [] (SetVal.ofJ (.arr l2)) 0 false none
        = (setWJElems [] l1 ++ setWJElems [] l2).map
            (fun w => ⟨w.1, .imm w.2, 0, false, none⟩) := by
      rw [storeSet, fromJ_eq, setDecls_ofJ, hsw1, hsw2, List.map_append]
    rw [hstore, lazyResolve_eq, if_neg (by simp [MAX_EVALUATION_DEPTH])]
    have helems1 : ∀ x ∈ l1, applyW .undef (setWJ [] x) = x ∧ (setWJ [] x).length = 1 := by
      intro x hx
      obtain ⟨hr, hw⟩ := roundTrippableElems_mem l1 h1 x hx
      exact ⟨applyW_setWJ_root x hr, hw⟩
    have helems2 : ∀ x ∈ l2, applyW .undef (setWJ [] x) = x ∧ (setWJ [] x).length = 1 := by
      intro x hx
      obtain ⟨hr, hw⟩ := roundTrippableElems_mem l2 h2 x hx
      exact ⟨applyW_setWJ_root x hr, hw⟩
    have hg : lazyGet ((setWJElems [] l1 ++ setWJElems [] l2).map
        (fun w => ⟨w.1, .imm w.2, 0, false, none⟩)) [] 1 = .ok (.arr (l1 ++ l2)) := by
      apply lazyGet_root_pure
      · intro d hd
        obtain ⟨w, _, rfl⟩ := List.mem_map.mp hd
        rfl
      · intro d hd
        obtain ⟨w, _, rfl⟩ := List.mem_map.mp hd
        rfl
      · right
        intro d hd
        obtain ⟨w, hwmem, rfl⟩ := List.mem_map.mp hd
        rcases List.mem_append.mp hwmem with hm | hm
        · exact setWJElems_paths l1 w hm
        · exact setWJElems_paths l2 w hm
      · intro hc
        exact setWJElems_ne_nil l1 hn1 (List.append_eq_nil.mp (List.map_eq_nil_iff.mp hc)).1
      · rw [List.map_map]
        have hcomp : (declWrite ∘ (fun w : VPath × JVal => (⟨w.1, .imm w.2, 0, false, none⟩ : Decl)))
            = (fun w : VPath × JVal => (⟨w.1, w.2, false, 0⟩ : BWrite)) := by
          funext w
          rfl
        rw [hcomp, builderResolve_unforced, applyW_append,
          applyW_arr_recon l1 .undef [] helems1 (Or.inl ⟨rfl, rfl, hn1⟩)]
        simp only [List.nil_append]
        rw [applyW_arr_recon l2 (.arr l1) l1 helems2 (Or.inr rfl)]
    rw [hg]

/-- C7 counterexample: appending a list whose element records two
declarations (a two-key record) pushes two array elements, so declaring
`["foo"]` and then setting `[{a:1, b:2}]` resolves to three elements,
not the concatenation of the two lists. -/
theorem list_append_counterexample :
    lazyResolve (storeSet (fromJ (.arr [.str "foo"])) []
        (SetVal.ofJ (.arr [.obj [("a", .num 1), ("b", .num 2)]])) 0 false none) [] .undef 0
      = .ok (.arr [.str "foo", .obj [("a", .num 1)], .obj [("b", .num 2)]]) ∧
    JVal.arr [.str "foo", .obj [("a", .num 1)], .obj [("b", .num 2)]]
      ≠ .arr ([.str "foo"] ++ [.obj [("a", .num 1), ("b", .num 2)]]) := by
  constructor
  · have hg : lazyGet (storeSet (fromJ (.arr [.str "foo"])) []
        (SetVal.ofJ (.arr [.obj [("a", .num 1), ("b", .num 2)]])) 0 false none) [] 1
        = .ok (.arr [.str "foo", .obj [("a", .num 1)], .obj [("b", .num 2)]]) := by
      simp [lazyGet, lazyGetA, storeSet, fromJ, lazyFrom, SetVal.ofJ, SetVal.ofJList,
        SetVal.ofJFields, setDecls, setDeclsElems, setDeclsFields, toStored, SetVal.toJ,
        processDeclsA, matchValues, ancestorChain, sortByWeight, insertW, builderResolve,
        arrayStartsWith, mergeVP, walkPath, updF]
    rw [lazyResolve_eq, if_neg (by simp [MAX_EVALUATION_DEPTH]), hg]
  · simp

/-- Witness for `set_decomposition_and_append`: the spec's own example —
declaring `["foo", "bar"]` and then setting `["bar2"]` resolves to
`["foo", "bar", "bar2"]`. -/
theorem set_decomposition_and_append_witness :
    ([JVal.str "foo", JVal.str "bar"] ≠ ([] : List JVal)) ∧
    ([JVal.str "bar2"] ≠ ([] : List JVal)) ∧
    roundTrippableElems [JVal.str "foo", JVal.str "bar"] = true ∧
    roundTrippableElems [JVal.str "bar2"] = true ∧
    lazyResolve (storeSet (fromJ (.arr [JVal.str "foo", JVal.str "bar"])) []
        (SetVal.ofJ (.arr [JVal.str "bar2"])) 0 false none) [] .undef 0
      = .ok (.arr [JVal.str "foo", JVal.str "bar", JVal.str "bar2"]) :=
  ⟨by simp, by simp,
   by simp [roundTrippableElems, roundTrippable, writeCount, setWJ],
   by simp [roundTrippableElems, roundTrippable, writeCount, setWJ],
   by
     have h := set_decomposition_and_append.2.2.2 [JVal.str "foo", JVal.str "bar"] [JVal.str "bar2"]
       (by simp) (by simp)
       (by simp [roundTrippableElems, roundTrippable, writeCount, setWJ])
       (by simp [roundTrippableElems, roundTrippable, writeCount, setWJ])
     simpa using h⟩

end Architect
